import Mathlib

/-!
# Verification of the orbital-map layout core

A shallow embedding, in Lean 4, of the layout/visibility pipeline of the
folder-map repository, together with proofs and refutations of the stated
properties of that pipeline.

Embedded components (each definition carries a pointer to its source):

* the hierarchy normalizer `collectBubbleNodes` / `buildBubbleNodes` /
  `buildBubbleTree` (src/unnamed/part_015);
* the visibility resolver / planner `computeVisibleGraph` and the position
  seeder `ensurePosition` (src/unnamed/part_004);
* the expansion toggle `handleNodeDoubleClick` and `collectDescendantIds`
  (src/unnamed/part_001);
* the d3-hierarchy visibility filter `getVisibleNodesAndLinks`
  (src/app/(interface)/components/maps-layout/orbital-map/dataUtils.ts);
* the node-id helper `getNodeId`
  (src/app/(interface)/components/maps-layout/orbital-map/nodeId.ts);
* the orbital / fan force updates
  (src/app/(interface)/components/maps-layout/orbital-map/physics.ts).

Modelling conventions:

* JS numbers a size/total computation only ever adds, maxes and compares are
  carried as exact `Int`; quantities that the source divides (angles, force
  terms, coordinates) are carried as exact `ℚ`.
* Angles are stored in *turns* (full circle = 1): a stored value `v`
  represents `2π·v` radians, so the source's offset `-π/2` is `-1/4` and a
  spacing of `2π/k` is `1/k`.  Transcendental functions (`Math.cos`,
  `Math.sin`, `Math.sqrt`) are abstracted as function parameters, since the
  claims proved here do not depend on their values.
* `Set<string>` values are modelled as `List String` used only through
  membership; `Map` values as association lists with JS `Map` insert /
  overwrite semantics.
* `Math.random()` is modelled by threading an explicit stream of draws
  (`List ℚ` or a `String` suffix); a function that never calls it simply
  ignores the stream.
-/

/-! ## Hierarchy normalizer (src/unnamed/part_015) -/

/-- Model of `FolderItem`
(src/app/(interface)/components/right-sidebar/data.ts lines 9-16):
`{id, name, isOpen, isSelected, children?, metrics?}`.  Only the fields read
by the layout pipeline are carried: `isOpen` is sidebar UI state the pipeline
never reads, and `metrics?.totalSize` is flattened to `totalSize`, where
`none` models a missing `metrics` object, a missing `totalSize` field or a
non-numeric value.  A missing `children` array models as `[]`, matching the
source's `folder.children ?? []`. -/
inductive FolderItem where
  | mk (id name : String) (isSelected : Bool) (totalSize : Option Int)
      (children : List FolderItem)

/-- Projection for the `id` field of `FolderItem`. -/
def FolderItem.id : FolderItem → String
  | .mk i _ _ _ _ => i

/-- Projection for the `name` field of `FolderItem`. -/
def FolderItem.name : FolderItem → String
  | .mk _ n _ _ _ => n

/-- Projection for the `isSelected` flag of `FolderItem`. -/
def FolderItem.isSelected : FolderItem → Bool
  | .mk _ _ s _ _ => s

/-- Projection for the `metrics?.totalSize` field of `FolderItem`. -/
def FolderItem.totalSize : FolderItem → Option Int
  | .mk _ _ _ t _ => t

/-- Projection for the `children` list of `FolderItem`. -/
def FolderItem.children : FolderItem → List FolderItem
  | .mk _ _ _ _ cs => cs

/-- Model of `ensurePositiveNumber` (src/unnamed/part_015 lines 27-32):
a non-number, `NaN` (both modelled by `none`) or a negative value becomes
`0`; any other value passes through. -/
def ensurePositiveNumber : Option Int → Int
  | none => 0
  | some v => if v < 0 then 0 else v

/-- Model of `TraverseContext` (src/unnamed/part_015 lines 21-25). -/
structure TraverseContext where
  serviceId : Option String
  parentId : Option String
  depth : Nat
deriving DecidableEq, Repr

/-- Model of `BubbleNode` (src/unnamed/part_015 lines 3-10). -/
structure BubbleNode where
  id : String
  name : String
  size : Int
  depth : Nat
  parentId : Option String
  serviceId : Option String
deriving DecidableEq, Repr

mutual

/-- Model of `collectBubbleNodes` (src/unnamed/part_015 lines 34-74).  The JS
version pushes into a shared `nodes` array and returns `branchTotal`; here
the pushed nodes are returned as the first component, in push order, and
`branchTotal` as the second. -/
def collectBubbleNodes : List FolderItem → TraverseContext → List BubbleNode × Int
  | [], _ => ([], 0)
  | f :: rest, ctx =>
    let one := collectBubbleNode f ctx
    let rs := collectBubbleNodes rest ctx
    (one.1 ++ rs.1, one.2 + rs.2)

/-- The body of the `folders.forEach` callback of `collectBubbleNodes` for one
folder: an unselected folder contributes nothing; a selected one first
recurses into its children, then pushes its own node with
`size = max(own reported size, children total)` and adds that size to the
branch total. -/
def collectBubbleNode : FolderItem → TraverseContext → List BubbleNode × Int
  | .mk i n sel tsz cs, ctx =>
    if sel then
      let serviceId := if ctx.depth = 0 then some i else ctx.serviceId
      let childRes := collectBubbleNodes cs ⟨serviceId, some i, ctx.depth + 1⟩
      let ownSize := ensurePositiveNumber tsz
      let computedSize := max ownSize childRes.2
      (childRes.1 ++ [⟨i, n, computedSize, ctx.depth, ctx.parentId, serviceId⟩],
        computedSize)
    else ([], 0)

end

/-- Model of `buildBubbleNodes` (src/unnamed/part_015 lines 76-89); the
source's early return for a null/empty input coincides with
`collectBubbleNodes [] _ = ([], 0)`. -/
def buildBubbleNodes (folders : List FolderItem) : List BubbleNode :=
  (collectBubbleNodes folders ⟨none, none, 0⟩).1

/-- The comparator `sortBySizeDesc` (src/unnamed/part_015 line 91),
`(a, b) => b.size - a.size`, as the relation it sorts by: `a` may precede `b`
iff `b.size - a.size ≤ 0`. -/
def sizeDescBN (a b : BubbleNode) : Prop := b.size ≤ a.size

instance : DecidableRel sizeDescBN := fun a b => inferInstanceAs (Decidable (b.size ≤ a.size))

instance : IsTotal BubbleNode sizeDescBN := ⟨fun a b => le_total b.size a.size⟩

instance : IsTrans BubbleNode sizeDescBN := ⟨fun _ _ _ h1 h2 => le_trans h2 h1⟩

/-- JS truthiness of an optional string: `undefined`/`null` and `""` are
falsy. -/
def optTruthy : Option String → Bool
  | none => false
  | some s => s ≠ ""

/-- JS `Map.set` on an association keyed by `BubbleNode.id`: overwriting an
existing key keeps its original insertion position, a new key is appended. -/
def mapSet (entries : List BubbleNode) (n : BubbleNode) : List BubbleNode :=
  if entries.any (fun e => e.id = n.id) then
    entries.map (fun e => if e.id = n.id then n else e)
  else entries ++ [n]

/-- The entry list (in `Map` iteration = insertion order) of the `nodeMap`
built by `buildBubbleTree` from a node list; the stored value
`{...node, children: []}` is represented by the node itself, the recursive
`children` linkage being recovered by `BubbleTree.childrenOf` below. -/
def mapEntriesOf (nodes : List BubbleNode) : List BubbleNode :=
  nodes.foldl mapSet []

/-- The test `node.parentId && nodeMap.has(node.parentId)` of
src/unnamed/part_015 line 112, deciding whether an entry is attached under a
parent (otherwise it is pushed to `roots`). -/
def isChildEntry (entries : List BubbleNode) (n : BubbleNode) : Bool :=
  match n.parentId with
  | none => false
  | some p => p ≠ "" && entries.any (fun e => e.id = p)

/-- The children pushed onto entry `p`'s `children` array, in push (= map
iteration) order, before sorting. -/
def childEntries (entries : List BubbleNode) (p : String) : List BubbleNode :=
  entries.filter (fun n => isChildEntry entries n && n.parentId = some p)

/-- The nodes pushed onto `roots`, in push order, before sorting. -/
def rootEntries (entries : List BubbleNode) : List BubbleNode :=
  entries.filter (fun n => !isChildEntry entries n)

/-- Result of `buildBubbleTree`: the JS value `{roots, nodeMap}` holds
mutably-linked `BubbleTreeNode`s; the model carries the map entries, the
sorted roots and the sorted per-entry children arrays as a function of the
parent id (meaningful for ids present in `entries`). -/
structure BubbleTree where
  entries : List BubbleNode
  roots : List BubbleNode
  childrenOf : String → List BubbleNode

/-- Model of `buildBubbleTree` (src/unnamed/part_015 lines 93-123).
`Array.prototype.sort` is specified to be stable, so the two
`sort(sortBySizeDesc)` calls are modelled by the stable `insertionSort` with
the relation `sizeDescBN`. -/
def buildBubbleTree (nodes : List BubbleNode) (minDepth : Nat) : BubbleTree :=
  let filteredNodes := nodes.filter (fun n => 0 < n.size && minDepth ≤ n.depth)
  let entries := mapEntriesOf filteredNodes
  { entries := entries
    roots := (rootEntries entries).insertionSort sizeDescBN
    childrenOf := fun p => (childEntries entries p).insertionSort sizeDescBN }

/-! ## The bubble tree node type (src/unnamed/part_015 lines 12-14) -/

/-- Model of `BubbleTreeNode`: a `BubbleNode` together with its (already
linked and sorted) `children` array.  Lean structures cannot be recursive, so
this is an inductive with one constructor carrying the same fields. -/
inductive BT where
  | mk (id name : String) (size : Int) (depth : Nat) (parentId : Option String)
      (serviceId : Option String) (children : List BT)

/-- Projection for the `id` field of a `BubbleTreeNode`. -/
def BT.id : BT → String
  | .mk i _ _ _ _ _ _ => i

/-- Projection for the `name` field of a `BubbleTreeNode`. -/
def BT.name : BT → String
  | .mk _ n _ _ _ _ _ => n

/-- Projection for the `size` field of a `BubbleTreeNode`. -/
def BT.size : BT → Int
  | .mk _ _ s _ _ _ _ => s

/-- Projection for the `depth` field of a `BubbleTreeNode`. -/
def BT.depth : BT → Nat
  | .mk _ _ _ d _ _ _ => d

/-- Projection for the `parentId` field of a `BubbleTreeNode`. -/
def BT.parentId : BT → Option String
  | .mk _ _ _ _ p _ _ => p

/-- Projection for the `children` list of a `BubbleTreeNode`. -/
def BT.children : BT → List BT
  | .mk _ _ _ _ _ _ cs => cs

mutual

/-- All nodes of the subtree rooted at `t`, in preorder. -/
def BT.allNodes : BT → List BT
  | .mk i n s d p sv cs => .mk i n s d p sv cs :: BT.allNodesF cs

/-- All nodes of a forest, in preorder. -/
def BT.allNodesF : List BT → List BT
  | [] => []
  | t :: ts => t.allNodes ++ BT.allNodesF ts

end

/-- The ids of all nodes of the subtree rooted at `t`, in preorder. -/
def BT.ids (t : BT) : List String := t.allNodes.map BT.id

/-! ## Visibility resolver and orbit planner (src/unnamed/part_004) -/

/-- `NODE_RADIUS_BY_DEPTH` (src/unnamed/part_004 line 28). -/
def NODE_RADIUS_BY_DEPTH : List ℚ := [64, 44, 32, 26, 20]

/-- `ORBIT_DISTANCE_BY_DEPTH` (src/unnamed/part_004 line 29). -/
def ORBIT_DISTANCE_BY_DEPTH : List ℚ := [0, 220, 150, 110, 90]

/-- `depthIndex` (src/unnamed/part_004 line 64). -/
def depthIndex (depth : Nat) : Nat := min depth (NODE_RADIUS_BY_DEPTH.length - 1)

/-- Model of `OrbitalSimulationNode` as produced by `computeVisibleGraph`
(src/unnamed/part_004 lines 40-57 and 99-108): the spread `...node` fields of
the `BubbleTreeNode` plus the planner decorations.  `targetAngle` is stored
in turns (the source stores radians: `2π ×` this value).  The live
simulation fields (`x`, `y`, `vx`, `vy`, `fx`, `fy`, colors) are absent here:
they are `undefined` at this point in the source. -/
structure OSN where
  id : String
  name : String
  size : Int
  depth : Nat
  parentId : Option String
  serviceId : Option String
  childrenSrc : List BT
  radius : ℚ
  orbitRadius : ℚ
  childOrbitRadius : ℚ
  targetAngle : ℚ
  groupIndex : Nat
  siblingIndex : Nat
  siblingCount : Nat

/-- A link `{source, target}` pushed by the traversal (ids, as in the
source's `links.push({source: parent.id, target: node.id})`). -/
structure OLink where
  source : String
  target : String
deriving DecidableEq, Repr

/-- The node record pushed by `traverse` for the node it is called on, given
the traversal parameters (src/unnamed/part_004 lines 85-108). -/
def mkOSN (node : BT) (depth : Nat) (groupIndex siblingIndex siblingCount : Nat) : OSN :=
  match node with
  | .mk i n s dep pid sv cs =>
    let depthIdx := depthIndex depth
    let radius := NODE_RADIUS_BY_DEPTH.getD depthIdx 0
    let orbitRadius : ℚ :=
      if depth = 0 then 0
      else ORBIT_DISTANCE_BY_DEPTH.getD (min depth (ORBIT_DISTANCE_BY_DEPTH.length - 1)) 0
    let childOrbitRadius : ℚ :=
      if cs.isEmpty then 0
      else ORBIT_DISTANCE_BY_DEPTH.getD (min (depth + 1) (ORBIT_DISTANCE_BY_DEPTH.length - 1)) 0
    let angleCount := if 0 < siblingCount then siblingCount else 1
    let targetAngle : ℚ :=
      if depth = 0 then 0 else -(1 : ℚ)/4 + (siblingIndex : ℚ) / (angleCount : ℚ)
    ⟨i, n, s, dep, pid, sv, cs, radius, orbitRadius, childOrbitRadius, targetAngle,
      groupIndex, siblingIndex, siblingCount⟩

mutual

/-- Model of the inner `traverse` of `computeVisibleGraph`
(src/unnamed/part_004 lines 77-128): pushes the decorated node, a link from
its parent when one exists, and recurses into the children only when the
node's id is in the expanded set.  The parent argument is carried as its id
(the only field the source reads from it when pushing the link).  Named
`traverseNode` because the source's name `traverse` collides with the
`Traversable.traverse` already in scope. -/
def traverseNode (exp : List String) :
    BT → Nat → Option String → Nat → Nat → Nat → List OSN × List OLink
  | .mk i n s dep pid sv cs, depth, parent, groupIndex, siblingIndex, siblingCount =>
    let osn := mkOSN (.mk i n s dep pid sv cs) depth groupIndex siblingIndex siblingCount
    let parentLinks : List OLink :=
      match parent with
      | some pid0 => [⟨pid0, i⟩]
      | none => []
    if i ∈ exp then
      let rest := traverseChildren exp cs depth i groupIndex 0 cs.length
      (osn :: rest.1, parentLinks ++ rest.2)
    else
      (osn :: [], parentLinks)

/-- The `node.children.forEach((child, index) => traverse(child, depth + 1,
node, depth === 0 ? index : groupIndex, index, node.children.length))` loop,
with the parent's depth, id and group index and the running index made
explicit. -/
def traverseChildren (exp : List String) :
    List BT → Nat → String → Nat → Nat → Nat → List OSN × List OLink
  | [], _, _, _, _, _ => ([], [])
  | c :: rest, parentDepth, parentId, parentGroup, idx, count =>
    let r1 := traverseNode exp c (parentDepth + 1) (some parentId)
      (if parentDepth = 0 then idx else parentGroup) idx count
    let r2 := traverseChildren exp rest parentDepth parentId parentGroup (idx + 1) count
    (r1.1 ++ r2.1, r1.2 ++ r2.2)

end

/-- Model of `computeVisibleGraph` (src/unnamed/part_004 lines 66-133): a
null root yields the empty graph, otherwise the traversal starts at the root
with depth 0, no parent, and the root's own child count as `siblingCount`. -/
def computeVisibleGraph (rootNode : Option BT) (expandedNodes : List String) :
    List OSN × List OLink :=
  match rootNode with
  | none => ([], [])
  | some r => traverseNode expandedNodes r 0 none 0 0 r.children.length

/-- The ids marked visible by `computeVisibleGraph`. -/
def visibleIds (root : BT) (exp : List String) : List String :=
  (computeVisibleGraph (some root) exp).1.map OSN.id

/-! ## Expansion toggle (src/unnamed/part_001) -/

/-- JS `Set.add` on a duplicate-free list: a no-op when present, else append. -/
def jsSetAdd (l : List String) (x : String) : List String :=
  if x ∈ l then l else l ++ [x]

mutual

/-- Model of `collectDescendantIds` (src/unnamed/part_001 lines 75-107) for a
plain node with a `children` array (the `descendants()` method branch is for
d3 hierarchy nodes, which a `BubbleTreeNode` is not): every child's id is
accumulated when truthy, and each child is recursed into unconditionally.
The accumulator set is returned as a list of the ids added, in order. -/
def collectDescendantIds : BT → List String
  | .mk _ _ _ _ _ _ cs => collectDescendantIdsF cs

/-- The `children.forEach` loop of `collectDescendantIds`: add the child's id
when truthy, then recurse into the child. -/
def collectDescendantIdsF : List BT → List String
  | [] => []
  | c :: rest =>
    (if c.id = "" then [] else [c.id]) ++ collectDescendantIds c ++ collectDescendantIdsF rest

end

/-- Model of `handleNodeDoubleClick` (src/unnamed/part_001 lines 109-132)
applied to a `BubbleTreeNode` (whose `getExpandableNodeId` is its `id` field,
untruthy only when `""`): collapsing deletes the node's id *and* every
descendant id from the expanded set; expanding adds the node's id alone.
`Set.delete` over a duplicate-free list is modelled by `filter`. -/
def handleNodeDoubleClick (node : BT) (previous : List String) : List String :=
  if node.id = "" then previous
  else if node.id ∈ previous then
    (previous.filter (fun x => x ≠ node.id)).filter
      (fun x => x ∉ collectDescendantIds node)
  else jsSetAdd previous node.id

/-! ## The d3-hierarchy visibility filter (orbital-map/dataUtils.ts) -/

/-- Model of the `data` payload of a d3 hierarchy node as read by
`getVisibleNodesAndLinks` (dataUtils.ts line 48): the three fields probed by
`parent.data?.path ?? parent.data?.id ?? parent.data?.name`. -/
structure HData where
  id : Option String
  path : Option String
  name : Option String
deriving DecidableEq, Repr

/-- An input tree for `d3.hierarchy`: a data payload plus children. -/
inductive HTree where
  | mk (data : HData) (children : List HTree)

/-- A d3 hierarchy node as consumed by the filter: its data, its depth, and
its parent's data (none for the root). -/
abbrev HEntry := HData × Nat × Option HData

mutual

/-- Model of `root.descendants()` on a `d3.hierarchy` tree: the preorder list
of nodes, each carrying its depth and its parent's data. -/
def hDescendants : HTree → Nat → Option HData → List HEntry
  | .mk d cs, depth, parent => (d, depth, parent) :: hDescendantsF cs (depth + 1) (some d)

/-- `descendants()` over a forest of subtrees at a common depth and parent. -/
def hDescendantsF : List HTree → Nat → Option HData → List HEntry
  | [], _, _ => []
  | t :: ts, depth, parent => hDescendants t depth parent ++ hDescendantsF ts depth parent

end

/-- The filter predicate of `getVisibleNodesAndLinks` (dataUtils.ts lines
44-51): depth ≤ 1 is unconditionally visible ("root + integrations"); deeper
nodes are visible iff the parent key (`path ?? id ?? name`, required truthy)
is in the expanded set. -/
def isVisibleD3 (expanded : List String) (entry : HEntry) : Bool :=
  if entry.2.1 ≤ 1 then true
  else
    match entry.2.2 with
    | none => false
    | some p =>
      match p.path <|> p.id <|> p.name with
      | none => false
      | some key => if key = "" then false else decide (key ∈ expanded)

/-- The `visibleNodes` list of `getVisibleNodesAndLinks` (dataUtils.ts lines
40-58). -/
def visibleNodesD3 (root : HTree) (expanded : List String) : List HEntry :=
  (hDescendants root 0 none).filter (isVisibleD3 expanded)

/-! ## Node identity (orbital-map/nodeId.ts lines 25-34) -/

/-- Model of `IdSource` (nodeId.ts lines 12-16): `id` is carried already
stringified (the source applies `String(...)` to a string-or-number). -/
structure IdSource where
  id : Option String
  name : Option String
deriving DecidableEq, Repr

/-- The `replace(/\s+/g, '_')` of `getNodeId`: each maximal run of whitespace
characters becomes a single underscore.  The boolean records whether the
previous character belonged to a whitespace run (so the run emits only one
underscore). -/
def squashWsChars : List Char → Bool → List Char
  | [], _ => []
  | c :: cs, inRun =>
    if c.isWhitespace then
      (if inRun then [] else ['_']) ++ squashWsChars cs true
    else c :: squashWsChars cs false

/-- String version of `squashWsChars`. -/
def squashWs (s : String) : String := String.mk (squashWsChars s.data false)

/-- Model of `getNodeId` (nodeId.ts lines 25-34).  `rnd` is the
`Math.random().toString(36).slice(2)` draw the source would append in the
anonymous fallback; an explicit `id` (any value that is not
undefined/null, including `""`) is returned as is, a truthy `name` has its
whitespace squashed, and only the final fallback consumes the draw. -/
def getNodeId (node : IdSource) (rnd : String) : String :=
  match node.id with
  | some i => i
  | none =>
    match node.name with
    | some nm => if nm = "" then "node_" ++ rnd else squashWs nm
    | none => "node_" ++ rnd

/-! ## Cold-start position seeding (src/unnamed/part_004 lines 164-207) -/

/-- The fields of an `OrbitalSimulationNode` read by `ensurePosition`:
identity, parent linkage, planned orbit, and the live coordinates (`Option`
mirrors the possibly-undefined simulation fields).  `targetAngle` here is
the source's radian value carried as an exact rational of the model. -/
structure PosNode where
  id : String
  parentId : Option String
  orbitRadius : ℚ
  targetAngle : ℚ
  x : Option ℚ
  y : Option ℚ

/-- The position cache (`Map<string, {x, y}>`), as an association list. -/
abbrev PosCache := List (String × (ℚ × ℚ))

/-- `Map.get` on the position cache. -/
def cacheGet (c : PosCache) (k : String) : Option (ℚ × ℚ) :=
  (c.find? (fun e => e.1 = k)).map Prod.snd

/-- `Map.set` on the position cache: overwrite in place or append. -/
def cacheSet (c : PosCache) (k : String) (v : ℚ × ℚ) : PosCache :=
  if c.any (fun e => e.1 = k) then c.map (fun e => if e.1 = k then (k, v) else e)
  else c ++ [(k, v)]

/-- The node lookup (`Map<string, OrbitalSimulationNode>`). -/
abbrev PosLookup := List (String × PosNode)

/-- `Map.get` on the node lookup. -/
def lookupGet (l : PosLookup) (k : String) : Option PosNode :=
  (l.find? (fun e => e.1 = k)).map Prod.snd

/-- Model of `ensurePosition` (src/unnamed/part_004 lines 164-207).  Branches
in source order: a root (falsy `parentId`) is centered and cached; a cached
node returns its cached position; a node with both live coordinates set
returns them unchanged; otherwise the position is derived from the parent's
ensured position, the orbit radius, and the target angle jittered by
`(Math.random() - 0.5) * 0.2` — the random draw is taken from the head of the
explicit `rng` stream.  `Math.cos`/`Math.sin` are the abstract parameters
`cosF`/`sinF`.  The source writes the result into `node.x`/`node.y` and the
cache and returns it; the model returns the position together with the
updated cache and remaining stream.  The structurally unbounded recursion
through `parentId` chains (which can diverge on cyclic input in JS too) is
bounded by explicit `fuel`; `fuel = 0` answers the viewport center, a branch
never reached from a sufficiently large budget on acyclic input. -/
def ensurePosition (cosF sinF : ℚ → ℚ) (lookup : PosLookup) (width height : ℚ) :
    Nat → PosNode → PosCache → List ℚ → (ℚ × ℚ) × PosCache × List ℚ
  | 0, _, cache, rng => ((width / 2, height / 2), cache, rng)
  | fuel + 1, node, cache, rng =>
    if optTruthy node.parentId = false then
      let center := (width / 2, height / 2)
      (center, cacheSet cache node.id center, rng)
    else
      match cacheGet cache node.id with
      | some cached => (cached, cache, rng)
      | none =>
        match node.x, node.y with
        | some px, some py => ((px, py), cache, rng)
        | _, _ =>
          let parentRes :=
            match node.parentId.bind (lookupGet lookup) with
            | some parent => ensurePosition cosF sinF lookup width height fuel parent cache rng
            | none => ((width / 2, height / 2), cache, rng)
          let pp := parentRes.1
          let r := parentRes.2.2.headD 0
          let angle := node.targetAngle + (r - 1/2) * (1/5)
          let pos := (pp.1 + cosF angle * node.orbitRadius,
                      pp.2 + sinF angle * node.orbitRadius)
          (pos, cacheSet parentRes.2.1 node.id pos, parentRes.2.2.tail)

/-! ## Force guards (orbital-map/physics.ts) -/

/-- The JS pattern `Math.sqrt(...) || 1` (physics.ts lines 87 and 353): a
zero (or NaN) distance is replaced by the fixed value 1. -/
def jsOrOne (s : ℚ) : ℚ := if s = 0 then 1 else s

/-- Model of the per-node body of `orbitalForce` (physics.ts lines 70-95):
the velocity delta applied to `(vx, vy)`.  `targetX/targetY` are the node's
`layoutInfo` target, `parentLayout` is `some (ptx, pty)` when the node has a
parent whose layout entry exists (the two guards of line 80/84 collapse into
this one option), `orbitRadius` is `layoutInfo.orbitRadius || 0`.  `sqrtF`
abstracts `Math.sqrt`; `rng` models the `Math.random()` stream, from which
this code draws nothing. -/
def orbitalForceUpdate (sqrtF : ℚ → ℚ) (nodeX nodeY : Option ℚ) (vx vy : ℚ)
    (targetX targetY : ℚ) (parentLayout : Option (ℚ × ℚ)) (orbitRadius : ℚ)
    (rng : List ℚ) : ℚ × ℚ :=
  let k : ℚ := 18/100
  let x := nodeX.getD 0
  let y := nodeY.getD 0
  let vx1 := vx + (targetX - x) * k
  let vy1 := vy + (targetY - y) * k
  match parentLayout with
  | some pl =>
    if 0 < orbitRadius then
      let dx := x - pl.1
      let dy := y - pl.2
      let distance := jsOrOne (sqrtF (dx * dx + dy * dy))
      let delta := distance - orbitRadius
      let radialStrength : ℚ := 22/100
      (vx1 - dx / distance * delta * radialStrength,
       vy1 - dy / distance * delta * radialStrength)
    else (vx1, vy1)
  | none => (vx1, vy1)

/-- Model of the per-child body of `positionChildren` (physics.ts lines
342-379): the new `(vx, vy)` of one child of `node`, where `node` itself has
parent `parent`.  `childIndex`/`childCount` are the `forEach` index and
`children.length`; `isFolderFoxParent` is the `parent === folderFox` test.
`sqrtF` abstracts `Math.sqrt`; `rng` models the `Math.random()` stream, from
which this code draws nothing. -/
def positionChildrenUpdate (sqrtF : ℚ → ℚ) (nodeX nodeY parentX parentY : ℚ)
    (childX childY childVx childVy : ℚ) (childIndex childCount : Nat)
    (isFolderFoxParent : Bool) (rng : List ℚ) : ℚ × ℚ :=
  let FAN_SPREAD : ℚ := 25
  let PRIMARY_RADIUS : ℚ := 120
  let THIRD_LEVEL_OFFSET : ℚ := 180
  let dx := nodeX - parentX
  let dy := nodeY - parentY
  let len := jsOrOne (sqrtF (dx * dx + dy * dy))
  let ux := dx / len
  let uy := dy / len
  let perpX := -uy
  let perpY := ux
  let totalSpread := min ((childCount : ℚ) * FAN_SPREAD) 80
  let start := -totalSpread / 2
  let step := totalSpread / max ((childCount : ℚ) - 1) 1
  let offset := start + (childIndex : ℚ) * step
  let dist := if isFolderFoxParent then PRIMARY_RADIUS else THIRD_LEVEL_OFFSET
  let targetX := nodeX + ux * dist + perpX * offset
  let targetY := nodeY + uy * dist + perpY * offset
  let k : ℚ := 25/100
  let damp : ℚ := 85/100
  (childVx * damp + (targetX - childX) * k,
   childVy * damp + (targetY - childY) * k)

/-! ## Tree membership and id-uniqueness machinery -/

theorem BT.id_mk (i n : String) (s : Int) (d : Nat) (p sv : Option String)
    (cs : List BT) : (BT.mk i n s d p sv cs).id = i := rfl

theorem BT.children_mk (i n : String) (s : Int) (d : Nat) (p sv : Option String)
    (cs : List BT) : (BT.mk i n s d p sv cs).children = cs := rfl

theorem BT.allNodes_mk (i n : String) (s : Int) (d : Nat) (p sv : Option String)
    (cs : List BT) :
    (BT.mk i n s d p sv cs).allNodes = BT.mk i n s d p sv cs :: BT.allNodesF cs := rfl

theorem BT.allNodesF_nil : BT.allNodesF [] = [] := rfl

theorem BT.allNodesF_cons (t : BT) (ts : List BT) :
    BT.allNodesF (t :: ts) = t.allNodes ++ BT.allNodesF ts := rfl

mutual

/-- Structural induction over `BT`, with the inductive hypothesis available
for every member of the children list. -/
theorem BT.inductionOn {P : BT → Prop}
    (h : ∀ i n s d p sv cs, (∀ c ∈ cs, P c) → P (.mk i n s d p sv cs)) :
    ∀ t, P t
  | .mk i n s d p sv cs => h i n s d p sv cs (fun c hc => BT.inductionOnF h cs c hc)

/-- Forest part of `BT.inductionOn`. -/
theorem BT.inductionOnF {P : BT → Prop}
    (h : ∀ i n s d p sv cs, (∀ c ∈ cs, P c) → P (.mk i n s d p sv cs)) :
    ∀ (l : List BT), ∀ c ∈ l, P c
  | t :: ts, c, hc =>
    (List.mem_cons.mp hc).elim (fun hc1 => hc1 ▸ BT.inductionOn h t)
      (fun hc2 => BT.inductionOnF h ts c hc2)

end

theorem BT.self_mem_allNodes (t : BT) : t ∈ t.allNodes := by
  cases t with
  | mk i n s d p sv cs => simp [BT.allNodes_mk]

theorem BT.mem_allNodesF {l : List BT} {m : BT} :
    m ∈ BT.allNodesF l ↔ ∃ c ∈ l, m ∈ c.allNodes := by
  induction l with
  | nil => simp [BT.allNodesF_nil]
  | cons t ts ih => simp [BT.allNodesF_cons, ih]

theorem BT.mem_allNodes_iff {t m : BT} :
    m ∈ t.allNodes ↔ m = t ∨ ∃ c ∈ t.children, m ∈ c.allNodes := by
  cases t with
  | mk i n s d p sv cs =>
    simp [BT.allNodes_mk, BT.children_mk, BT.mem_allNodesF]

theorem BT.child_mem_allNodes {t c : BT} (hc : c ∈ t.children) : c ∈ t.allNodes :=
  BT.mem_allNodes_iff.mpr (Or.inr ⟨c, hc, BT.self_mem_allNodes c⟩)

theorem BT.allNodes_trans (t : BT) :
    ∀ p m : BT, p ∈ t.allNodes → m ∈ p.allNodes → m ∈ t.allNodes := by
  induction t using BT.inductionOn with
  | _ i n s d p0 sv cs ih =>
    intro p m hp hm
    rcases BT.mem_allNodes_iff.mp hp with h | ⟨c, hc, hpc⟩
    · exact h ▸ hm
    · exact BT.mem_allNodes_iff.mpr
        (Or.inr ⟨c, hc, ih c (by simpa [BT.children_mk] using hc) p m hpc hm⟩)

theorem BT.allNodesF_sublist_of_mem {l : List BT} {c : BT} (hc : c ∈ l) :
    c.allNodes.Sublist (BT.allNodesF l) := by
  induction l with
  | nil => cases hc
  | cons t ts ih =>
    rcases List.mem_cons.mp hc with h | h
    · rw [BT.allNodesF_cons, h]
      exact List.sublist_append_left _ _
    · exact (ih h).trans (by rw [BT.allNodesF_cons]; exact List.sublist_append_right _ _)

theorem BT.allNodes_sublist (t : BT) :
    ∀ p : BT, p ∈ t.allNodes → p.allNodes.Sublist t.allNodes := by
  induction t using BT.inductionOn with
  | _ i n s d p0 sv cs ih =>
    intro p hp
    rcases BT.mem_allNodes_iff.mp hp with h | ⟨c, hc, hpc⟩
    · exact h ▸ List.Sublist.refl _
    · have hsub := ih c (by simpa [BT.children_mk] using hc) p hpc
      rw [BT.allNodes_mk]
      exact (hsub.trans
        (BT.allNodesF_sublist_of_mem (by simpa [BT.children_mk] using hc))).cons _

theorem BT.ids_nodup_sub {t p : BT} (hnd : t.ids.Nodup) (hp : p ∈ t.allNodes) :
    p.ids.Nodup :=
  hnd.sublist ((BT.allNodes_sublist t p hp).map BT.id)

theorem BT.id_inj {t m n : BT} (hnd : t.ids.Nodup) (hm : m ∈ t.allNodes)
    (hn : n ∈ t.allNodes) (h : m.id = n.id) : m = n :=
  List.inj_on_of_nodup_map hnd hm hn h

/-- The id list of a forest of subtrees. -/
def BT.idsF (l : List BT) : List String := (BT.allNodesF l).map BT.id

theorem BT.idsF_nil : BT.idsF [] = [] := rfl

theorem BT.idsF_cons (t : BT) (ts : List BT) :
    BT.idsF (t :: ts) = t.ids ++ BT.idsF ts := by
  simp [BT.idsF, BT.ids, BT.allNodesF_cons]

theorem BT.ids_mk (i n : String) (s : Int) (d : Nat) (p sv : Option String)
    (cs : List BT) : (BT.mk i n s d p sv cs).ids = i :: BT.idsF cs := by
  simp [BT.ids, BT.allNodes_mk, BT.idsF, BT.id_mk]

theorem BT.idsF_eq_join (l : List BT) : BT.idsF l = (l.map BT.ids).flatten := by
  induction l with
  | nil => simp [BT.idsF_nil]
  | cons t ts ih => simp [BT.idsF_cons, ih]

theorem BT.self_id_mem_ids (t : BT) : t.id ∈ t.ids :=
  List.mem_map_of_mem BT.id (BT.self_mem_allNodes t)

theorem BT.mem_ids_of_mem_allNodes {t m : BT} (hm : m ∈ t.allNodes) : m.id ∈ t.ids :=
  List.mem_map_of_mem BT.id hm

/-- A child of any node of the subtree `t` occurs among the descendants-of-
children of `t`. -/
theorem BT.mem_children_allNodesF {t q c : BT} (hq : q ∈ t.allNodes)
    (hc : c ∈ q.children) : c ∈ BT.allNodesF t.children := by
  rcases BT.mem_allNodes_iff.mp hq with h | ⟨c0, hc0, hqc⟩
  · subst h
    exact BT.mem_allNodesF.mpr ⟨c, hc, BT.self_mem_allNodes c⟩
  · exact BT.mem_allNodesF.mpr
      ⟨c0, hc0, BT.allNodes_trans c0 q c hqc (BT.child_mem_allNodes hc)⟩

/-- In an id-unique tree no node of the subtree has the subtree root as one
of its children (no cycle back to the root). -/
theorem BT.child_id_ne_root {t q c : BT} (hnd : t.ids.Nodup) (hq : q ∈ t.allNodes)
    (hc : c ∈ q.children) : c.id ≠ t.id := by
  cases t with
  | mk i n s d p sv cs =>
    have hmem : c ∈ BT.allNodesF cs := by
      simpa [BT.children_mk] using BT.mem_children_allNodesF hq hc
    have hcid : c.id ∈ BT.idsF cs := List.mem_map_of_mem BT.id hmem
    have hnd' : (i :: BT.idsF cs).Nodup := by simpa [BT.ids_mk] using hnd
    intro heq
    exact (List.nodup_cons.mp hnd').1 (by simpa [BT.id_mk, heq] using hcid)

/-- In an id-unique tree, subtrees hanging off distinct children have
disjoint id lists. -/
theorem BT.ids_disjoint_of_ne {cs : List BT} (hnd : (BT.idsF cs).Nodup)
    {a b : BT} (ha : a ∈ cs) (hb : b ∈ cs) (hne : a ≠ b) :
    a.ids.Disjoint b.ids := by
  rw [BT.idsF_eq_join] at hnd
  have hpw : (cs.map BT.ids).Pairwise List.Disjoint :=
    (List.nodup_flatten.mp hnd).2
  have hpw' : cs.Pairwise (fun x y => x.ids.Disjoint y.ids) :=
    (List.pairwise_map).mp hpw
  exact hpw'.forall (fun _ _ h => h.symm) ha hb hne

/-- A node of an id-unique tree has at most one parent: two parent-child
pairs with the same child id coincide. -/
theorem BT.parent_unique (t : BT) :
    t.ids.Nodup → ∀ p q c, p ∈ t.allNodes → q ∈ t.allNodes →
      c ∈ p.children → c ∈ q.children → p = q := by
  induction t using BT.inductionOn with
  | _ i n s d p0 sv cs ih =>
    intro hnd p q c hp hq hcp hcq
    have hndcs : (BT.idsF cs).Nodup := by
      have := (List.nodup_cons.mp (by simpa [BT.ids_mk] using hnd)).2
      exact this
    have hsubnd : ∀ c0 ∈ cs, c0.ids.Nodup := fun c0 hc0 =>
      BT.ids_nodup_sub hnd (BT.child_mem_allNodes (by simpa [BT.children_mk] using hc0))
    -- helper: a cross-subtree occurrence contradicts disjointness
    have cross : ∀ ca cb : BT, ca ∈ cs → cb ∈ cs → ca ≠ cb →
        c ∈ ca.allNodes → c ∈ cb.allNodes → False := by
      intro ca cb hca hcb hne hma hmb
      exact BT.ids_disjoint_of_ne hndcs hca hcb hne
        (BT.mem_ids_of_mem_allNodes hma) (BT.mem_ids_of_mem_allNodes hmb)
    rcases BT.mem_allNodes_iff.mp hp with hpt | ⟨cp, hcpm, hpsub⟩ <;>
      rcases BT.mem_allNodes_iff.mp hq with hqt | ⟨cq, hcqm, hqsub⟩
    · exact hpt.trans hqt.symm
    · -- p is the root, q lives in the subtree of child cq
      exfalso
      have hccs : c ∈ cs := by
        have := hcp; rw [hpt, BT.children_mk] at this; exact this
      have hcqcs : cq ∈ cs := by simpa [BT.children_mk] using hcqm
      have hcq' : c ∈ cq.allNodes :=
        BT.allNodes_trans cq q c hqsub (BT.child_mem_allNodes hcq)
      by_cases hceq : c = cq
      · subst hceq
        exact BT.child_id_ne_root (hsubnd c hccs) hqsub hcq rfl
      · exact cross c cq hccs hcqcs hceq (BT.self_mem_allNodes c) hcq'
    · -- symmetric: q is the root, p lives in the subtree of child cp
      exfalso
      have hccs : c ∈ cs := by
        have := hcq; rw [hqt, BT.children_mk] at this; exact this
      have hcpcs : cp ∈ cs := by simpa [BT.children_mk] using hcpm
      have hcp' : c ∈ cp.allNodes :=
        BT.allNodes_trans cp p c hpsub (BT.child_mem_allNodes hcp)
      by_cases hceq : c = cp
      · subst hceq
        exact BT.child_id_ne_root (hsubnd c hccs) hpsub hcp rfl
      · exact cross c cp hccs hcpcs hceq (BT.self_mem_allNodes c) hcp'
    · -- both inside child subtrees
      have hcpcs : cp ∈ cs := by simpa [BT.children_mk] using hcpm
      have hcqcs : cq ∈ cs := by simpa [BT.children_mk] using hcqm
      by_cases hpq : cp = cq
      · subst hpq
        exact ih cp hcpcs (hsubnd cp hcpcs) p q c hpsub hqsub hcp hcq
      · exfalso
        have hcp' : c ∈ cp.allNodes :=
          BT.allNodes_trans cp p c hpsub (BT.child_mem_allNodes hcp)
        have hcq' : c ∈ cq.allNodes :=
          BT.allNodes_trans cq q c hqsub (BT.child_mem_allNodes hcq)
        exact cross cp cq hcpcs hcqcs hpq hcp' hcq'

/-! ## The visibility relation -/

/-- `Vis exp t m` holds when the traversal of `computeVisibleGraph` started
at `t` reaches `m`: either `m` is `t` itself, or `t` is expanded and `m` is
reached from one of `t`'s children. -/
inductive Vis (exp : List String) : BT → BT → Prop where
  | refl (t : BT) : Vis exp t t
  | step {t c m : BT} : t.id ∈ exp → c ∈ t.children → Vis exp c m → Vis exp t m

theorem Vis.mem_allNodes {exp : List String} {t m : BT} (h : Vis exp t m) :
    m ∈ t.allNodes := by
  induction h with
  | refl t => exact BT.self_mem_allNodes t
  | step ht hc _ ih => exact BT.mem_allNodes_iff.mpr (Or.inr ⟨_, hc, ih⟩)

theorem Vis.mono {exp exp2 : List String} {t m : BT} (hsub : ∀ x ∈ exp, x ∈ exp2)
    (h : Vis exp t m) : Vis exp2 t m := by
  induction h with
  | refl t => exact Vis.refl t
  | step ht hc _ ih => exact Vis.step (hsub _ ht) hc ih

theorem Vis.append_child {exp : List String} {t p c : BT} (h : Vis exp t p)
    (hpe : p.id ∈ exp) (hc : c ∈ p.children) : Vis exp t c := by
  induction h with
  | refl t => exact Vis.step hpe hc (Vis.refl c)
  | step ht hc0 _ ih => exact Vis.step ht hc0 (ih hpe hc)

theorem Vis.last_step {exp : List String} {t m : BT} (h : Vis exp t m) :
    m = t ∨ ∃ q, Vis exp t q ∧ q.id ∈ exp ∧ m ∈ q.children := by
  induction h with
  | refl t => exact Or.inl rfl
  | step ht hc h ih =>
    rcases ih with rfl | ⟨q, hq, hqe, hm⟩
    · exact Or.inr ⟨_, Vis.refl _, ht, hc⟩
    · exact Or.inr ⟨q, Vis.step ht hc hq, hqe, hm⟩

theorem Vis.of_not_expanded {exp : List String} {t m : BT} (h : Vis exp t m)
    (hne : t.id ∉ exp) : m = t := by
  cases h with
  | refl => rfl
  | step ht _ _ => exact absurd ht hne

/-- Decomposition of reachability after inserting one id into the expanded
set: either the chain avoids the new id, or it passes through a node carrying
it. -/
theorem Vis.insert_decomp {exp : List String} {a : String} {t m : BT}
    (h : Vis (a :: exp) t m) :
    Vis exp t m ∨ ∃ q c, Vis exp t q ∧ q.id = a ∧ c ∈ q.children ∧ Vis (a :: exp) c m := by
  induction h with
  | refl t => exact Or.inl (Vis.refl t)
  | step ht hc h ih =>
    rename_i t0 c0 m0
    rcases List.mem_cons.mp ht with hta | hte
    · exact Or.inr ⟨t0, c0, Vis.refl t0, hta, hc, h⟩
    · rcases ih with h1 | ⟨q, c, hq, hqa, hcq, hm⟩
      · exact Or.inl (Vis.step hte hc h1)
      · exact Or.inr ⟨q, c, Vis.step hte hc hq, hqa, hcq, hm⟩

theorem mkOSN_id (t : BT) (d gi si sc : Nat) : (mkOSN t d gi si sc).id = t.id := by
  cases t with
  | mk i n s dep pid sv cs => rfl

/-- A node id appears in the `nodes` output of `traverse` exactly when the
visibility relation reaches a node carrying that id, independently of the
decoration parameters. -/
theorem mem_traverse_ids (exp : List String) (t : BT) :
    ∀ (d : Nat) (par : Option String) (gi si sc : Nat) (x : String),
      x ∈ (traverseNode exp t d par gi si sc).1.map OSN.id ↔
        ∃ m, Vis exp t m ∧ m.id = x := by
  induction t using BT.inductionOn with
  | _ i n s dep pid sv cs ih =>
    have forest : ∀ (l : List BT), (∀ c ∈ l, ∀ (d : Nat) (par : Option String)
          (gi si sc : Nat) (x : String),
          x ∈ (traverseNode exp c d par gi si sc).1.map OSN.id ↔
            ∃ m, Vis exp c m ∧ m.id = x) →
        ∀ (pd : Nat) (pid0 : String) (pg idx count : Nat) (x : String),
          x ∈ (traverseChildren exp l pd pid0 pg idx count).1.map OSN.id ↔
            ∃ c ∈ l, ∃ m, Vis exp c m ∧ m.id = x := by
      intro l
      induction l with
      | nil =>
        intro _ pd pid0 pg idx count x
        simp [traverseChildren]
      | cons c rest ihl =>
        intro hall pd pid0 pg idx count x
        have hc := hall c (List.mem_cons_self c rest)
        have hrest := ihl (fun c0 hc0 => hall c0 (List.mem_cons_of_mem c hc0))
        simp only [traverseChildren, List.map_append, List.mem_append]
        rw [hc, hrest]
        constructor
        · rintro (⟨m, hv, hx⟩ | ⟨c0, hc0, m, hv, hx⟩)
          · exact ⟨c, List.mem_cons_self c rest, m, hv, hx⟩
          · exact ⟨c0, List.mem_cons_of_mem c hc0, m, hv, hx⟩
        · rintro ⟨c0, hc0, m, hv, hx⟩
          rcases List.mem_cons.mp hc0 with rfl | hc0'
          · exact Or.inl ⟨m, hv, hx⟩
          · exact Or.inr ⟨c0, hc0', m, hv, hx⟩
    intro d par gi si sc x
    by_cases hie : i ∈ exp
    · have hie' : (BT.mk i n s dep pid sv cs).id ∈ exp := by simpa [BT.id_mk] using hie
      simp only [traverseNode, hie, if_pos]
      simp only [List.map_cons, List.mem_cons, mkOSN_id, BT.id_mk]
      rw [forest cs (fun c hc => ih c hc)]
      constructor
      · rintro (h1 | ⟨c, hcm, m, hv, hx⟩)
        · exact ⟨BT.mk i n s dep pid sv cs, Vis.refl _, by simpa [BT.id_mk] using h1.symm⟩
        · exact ⟨m, Vis.step hie' (by simpa [BT.children_mk] using hcm) hv, hx⟩
      · rintro ⟨m, hv, hx⟩
        cases hv with
        | refl => exact Or.inl (by simpa [BT.id_mk] using hx.symm)
        | step ht hcm hv0 =>
          exact Or.inr ⟨_, by simpa [BT.children_mk] using hcm, m, hv0, hx⟩
    · have hie' : (BT.mk i n s dep pid sv cs).id ∉ exp := by simpa [BT.id_mk] using hie
      simp only [traverseNode, hie, if_neg, if_false]
      simp only [List.map_cons, List.map_nil, List.mem_singleton, mkOSN_id, BT.id_mk]
      constructor
      · intro h1
        exact ⟨BT.mk i n s dep pid sv cs, Vis.refl _, by simpa [BT.id_mk] using h1.symm⟩
      · rintro ⟨m, hv, hx⟩
        have := hv.of_not_expanded hie'
        subst this
        exact (by simpa [BT.id_mk] using hx.symm)

/-- Membership in `visibleIds` is reachability through expanded nodes. -/
theorem mem_visibleIds {root : BT} {exp : List String} {x : String} :
    x ∈ visibleIds root exp ↔ ∃ m, Vis exp root m ∧ m.id = x := by
  simpa [visibleIds, computeVisibleGraph] using
    mem_traverse_ids exp root 0 none 0 0 root.children.length x

/-! ## Concrete example hierarchies (for witnesses and counterexamples) -/

/-- Leaf `A1` of the spec's example scenario. -/
def exA1 : BT := .mk "A1" "A1" 1 2 (some "A") none []

/-- Leaf `A2` of the spec's example scenario. -/
def exA2 : BT := .mk "A2" "A2" 1 2 (some "A") none []

/-- Node `A` of the spec's example scenario. -/
def exA : BT := .mk "A" "A" 2 1 (some "r") none [exA1, exA2]

/-- Node `B` of the spec's example scenario. -/
def exB : BT := .mk "B" "B" 1 1 (some "r") none []

/-- Root of the spec's example scenario `root → {A, B}`, `A → {A1, A2}`. -/
def exRoot : BT := .mk "r" "r" 3 0 none none [exA, exB]

/-- Grandchild `g` of the stale-expansion counterexample tree. -/
def cxG : BT := .mk "g" "g" 1 3 (some "c") none []

/-- Child `c` of `A` in the stale-expansion counterexample tree. -/
def cxC : BT := .mk "c" "c" 1 2 (some "A") none [cxG]

/-- Node `A` of the stale-expansion counterexample tree. -/
def cxA : BT := .mk "A" "A" 1 1 (some "r") none [cxC]

/-- Root of the stale-expansion counterexample tree `r → A → c → g`. -/
def cxRoot : BT := .mk "r" "r" 1 0 none none [cxA]

/-! ## C1: the visibility iff -/

/-- C1, amended to the resolver `computeVisibleGraph` (the d3-based resolver
`getVisibleNodesAndLinks` falsifies the claim as stated, see the
counterexample): over an id-unique hierarchy, the root is always visible, and
a child is visible iff its parent is visible and the parent's id is in the
expanded set. -/
theorem computeVisibleGraph_visible_iff (root : BT) (exp : List String)
    (hnd : root.ids.Nodup) :
    root.id ∈ visibleIds root exp ∧
    ∀ p c, p ∈ root.allNodes → c ∈ p.children →
      (c.id ∈ visibleIds root exp ↔ p.id ∈ visibleIds root exp ∧ p.id ∈ exp) := by
  constructor
  · exact mem_visibleIds.mpr ⟨root, Vis.refl root, rfl⟩
  · intro p c hp hc
    constructor
    · intro hcv
      rcases mem_visibleIds.mp hcv with ⟨m, hv, hx⟩
      have hm : m ∈ root.allNodes := hv.mem_allNodes
      have hcall : c ∈ root.allNodes :=
        BT.allNodes_trans root p c hp (BT.child_mem_allNodes hc)
      have hmc : m = c := BT.id_inj hnd hm hcall hx
      subst hmc
      rcases hv.last_step with heq | ⟨q, hq, hqe, hmq⟩
      · exact absurd (congrArg BT.id heq) (BT.child_id_ne_root hnd hp hc)
      · have hqall : q ∈ root.allNodes := hq.mem_allNodes
        have hpq : q = p := BT.parent_unique root hnd q p m hqall hp hmq hc
        subst hpq
        exact ⟨mem_visibleIds.mpr ⟨q, hq, rfl⟩, hqe⟩
    · rintro ⟨hpv, hpe⟩
      rcases mem_visibleIds.mp hpv with ⟨m, hv, hx⟩
      have hmp : m = p := BT.id_inj hnd hv.mem_allNodes hp hx
      subst hmp
      exact mem_visibleIds.mpr ⟨c, hv.append_child hpe hc, rfl⟩

/-- Witness for C1's amended theorem at the spec's example scenario
(`expandedIds = {r, A}`): checks the root conjunct and the iff instance for
the pair `A → A1`. -/
theorem computeVisibleGraph_visible_iff_witness :
    "r" ∈ visibleIds exRoot ["r", "A"] ∧
    ("A1" ∈ visibleIds exRoot ["r", "A"] ↔
      "A" ∈ visibleIds exRoot ["r", "A"] ∧ "A" ∈ ["r", "A"]) := by
  have h := computeVisibleGraph_visible_iff exRoot ["r", "A"] (by decide)
  refine ⟨h.1, ?_⟩
  have h2 := h.2 exA exA1
    (by simp [exRoot, exA, BT.allNodes, BT.allNodesF])
    (by simp [exA, exA1, BT.children_mk])
  simpa [exA, exA1, BT.id_mk] using h2

/-- Counterexample to C1 as stated: the resolver `getVisibleNodesAndLinks`
(dataUtils.ts lines 40-58) marks the depth-1 child `c` visible even though
its parent's id `r` is not in the (empty) expanded set and `c` is not the
root, refuting the claimed iff at this input. -/
theorem getVisibleNodesAndLinks_depth1_breaks_visibility_iff :
    ¬ (((⟨some "c", none, none⟩, 1, some ⟨some "r", none, none⟩) ∈
          visibleNodesD3 (.mk ⟨some "r", none, none⟩ [.mk ⟨some "c", none, none⟩ []]) []) ↔
        ((⟨some "c", none, none⟩, 1, some ⟨some "r", none, none⟩) =
            ((⟨some "r", none, none⟩, 0, none) : HEntry) ∨
          (((⟨some "r", none, none⟩, 0, none) ∈
              visibleNodesD3 (.mk ⟨some "r", none, none⟩ [.mk ⟨some "c", none, none⟩ []]) []) ∧
            "r" ∈ ([] : List String)))) := by
  decide

/-! ## C2: visibility monotonicity under expansion -/

/-- C2, amended with the proviso (forced by the stale-expansion
counterexample) that no direct child of `A` is already in the expanded set:
expanding a visible node `A` whose id is not yet expanded yields a strict
superset of the visible set — every previously visible id stays visible,
each direct child of `A` becomes visible and was not visible before, nothing
beyond the old set and `A`'s direct children appears, and no grandchild of
`A` is visible afterwards. -/
theorem computeVisibleGraph_expand_strict_superset
    (root A : BT) (exp : List String)
    (hnd : root.ids.Nodup)
    (hmem : A ∈ root.allNodes)
    (hvis : A.id ∈ visibleIds root exp)
    (hA : A.id ∉ exp)
    (hcf : ∀ c ∈ A.children, c.id ∉ exp) :
    (∀ x ∈ visibleIds root exp, x ∈ visibleIds root (A.id :: exp)) ∧
    (∀ c ∈ A.children,
      c.id ∈ visibleIds root (A.id :: exp) ∧ c.id ∉ visibleIds root exp) ∧
    (∀ x ∈ visibleIds root (A.id :: exp),
      x ∈ visibleIds root exp ∨ x ∈ A.children.map BT.id) ∧
    (∀ c ∈ A.children, ∀ g ∈ c.children, g.id ∉ visibleIds root (A.id :: exp)) := by
  have hndA : A.ids.Nodup := BT.ids_nodup_sub hnd hmem
  have hVisA : Vis exp root A := by
    rcases mem_visibleIds.mp hvis with ⟨m, hv, hx⟩
    have : m = A := BT.id_inj hnd hv.mem_allNodes hmem hx
    exact this ▸ hv
  have hsub : ∀ y ∈ exp, y ∈ A.id :: exp := fun y hy => List.mem_cons_of_mem _ hy
  refine ⟨?_, ?_, ?_, ?_⟩
  · intro x hx
    rcases mem_visibleIds.mp hx with ⟨m, hv, hmx⟩
    exact mem_visibleIds.mpr ⟨m, hv.mono hsub, hmx⟩
  · intro c hc
    constructor
    · exact mem_visibleIds.mpr
        ⟨c, (hVisA.mono hsub).append_child (List.mem_cons_self _ _) hc, rfl⟩
    · intro hcv
      rcases mem_visibleIds.mp hcv with ⟨m, hv, hx⟩
      have hcall : c ∈ root.allNodes :=
        BT.allNodes_trans root A c hmem (BT.child_mem_allNodes hc)
      have hmc : m = c := BT.id_inj hnd hv.mem_allNodes hcall hx
      subst hmc
      rcases hv.last_step with heq | ⟨q, hq, hqe, hmq⟩
      · exact absurd (congrArg BT.id heq) (BT.child_id_ne_root hnd hmem hc)
      · have hqA : q = A :=
          BT.parent_unique root hnd q A m hq.mem_allNodes hmem hmq hc
        exact hA (hqA ▸ hqe)
  · intro x hx
    rcases mem_visibleIds.mp hx with ⟨m, hv, hmx⟩
    rcases hv.insert_decomp with h1 | ⟨q, c, hq, hqa, hcq, hm⟩
    · exact Or.inl (mem_visibleIds.mpr ⟨m, h1, hmx⟩)
    · have hqA : q = A := BT.id_inj hnd hq.mem_allNodes hmem hqa
      subst hqA
      cases hm with
      | refl => exact Or.inr (hmx ▸ List.mem_map_of_mem BT.id hcq)
      | step hce hcc hv2 =>
        rcases List.mem_cons.mp hce with hca | hcexp
        · exact absurd hca (BT.child_id_ne_root hndA (BT.self_mem_allNodes q) hcq)
        · exact absurd hcexp (hcf c hcq)
  · intro c hc g hg hgv
    rcases mem_visibleIds.mp hgv with ⟨m, hv, hx⟩
    have hcall : c ∈ root.allNodes :=
      BT.allNodes_trans root A c hmem (BT.child_mem_allNodes hc)
    have hgall : g ∈ root.allNodes :=
      BT.allNodes_trans root c g hcall (BT.child_mem_allNodes hg)
    have hmg : m = g := BT.id_inj hnd hv.mem_allNodes hgall hx
    subst hmg
    rcases hv.last_step with heq | ⟨q, hq, hqe, hmq⟩
    · exact absurd (congrArg BT.id heq) (BT.child_id_ne_root hnd hcall hg)
    · have hqc : q = c :=
        BT.parent_unique root hnd q c m hq.mem_allNodes hcall hmq hg
      subst hqc
      rcases List.mem_cons.mp hqe with hca | hcexp
      · exact absurd hca (BT.child_id_ne_root hndA (BT.self_mem_allNodes A) hc)
      · exact absurd hcexp (hcf _ hc)

/-- Witness for C2's amended theorem: in the example scenario with
`expandedIds = {r}`, expanding `A` makes `A1` newly visible while it was not
visible before, and no id beyond the old visible set and `A`'s children
appears. -/
theorem computeVisibleGraph_expand_strict_superset_witness :
    ("A1" ∈ visibleIds exRoot ("A" :: ["r"]) ∧ "A1" ∉ visibleIds exRoot ["r"]) ∧
    (∀ x ∈ visibleIds exRoot ("A" :: ["r"]),
      x ∈ visibleIds exRoot ["r"] ∨ x ∈ exA.children.map BT.id) := by
  have h := computeVisibleGraph_expand_strict_superset exRoot exA ["r"]
    (by decide) (by simp [exRoot, exA, BT.allNodes, BT.allNodesF])
    (by decide) (by decide) (by decide)
  have hid : exA.id = "A" := rfl
  exact ⟨by simpa [hid] using h.2.1 exA1 (by simp [exA, BT.children_mk]),
    by simpa [hid] using h.2.2.1⟩

/-- Counterexample to C2 as stated: in the tree `r → A → c → g` with
expanded set `{r, c}` (a state the double-click toggle itself cannot reach,
but one C2 quantifies over), `A` is visible with children and not expanded,
yet expanding `A` also reveals the grandchild `g`, which is not a direct
child of `A`: the visible set after is not `before ∪ children(A)`. -/
theorem computeVisibleGraph_expand_grandchild_counterexample :
    "A" ∉ (["r", "c"] : List String) ∧
    "A" ∈ visibleIds cxRoot ["r", "c"] ∧
    cxA.children.map BT.id = ["c"] ∧
    "g" ∈ visibleIds cxRoot ("A" :: ["r", "c"]) ∧
    "g" ∉ visibleIds cxRoot ["r", "c"] ∧
    "g" ∉ cxA.children.map BT.id := by
  decide

/-! ## C3: what the double-click toggle changes -/

/-- The descendant-id accumulator collects exactly the non-empty ids of the
proper subtree below the node (in preorder). -/
theorem collectDescendantIds_eq_filter (t : BT) :
    collectDescendantIds t = (BT.idsF t.children).filter (fun x => x ≠ "") := by
  induction t using BT.inductionOn with
  | _ i n s d p sv cs ih =>
    have forest : ∀ (l : List BT),
        (∀ c ∈ l, collectDescendantIds c = (BT.idsF c.children).filter (fun x => x ≠ "")) →
        collectDescendantIdsF l = (BT.idsF l).filter (fun x => x ≠ "") := by
      intro l
      induction l with
      | nil => intro _; simp [collectDescendantIdsF, BT.idsF_nil]
      | cons c rest ihl =>
        intro hall
        have hc := hall c (List.mem_cons_self c rest)
        have hrest := ihl (fun c0 hc0 => hall c0 (List.mem_cons_of_mem c hc0))
        cases c with
        | mk ci cn csz cd cp csv ccs =>
          simp only [collectDescendantIdsF, hc, hrest, BT.idsF_cons, BT.ids_mk,
            BT.id_mk, BT.children_mk, List.filter_append, List.filter_cons,
            List.append_assoc]
          by_cases hci : ci = ""
          · simp [hci]
          · simp [hci]
    show collectDescendantIdsF cs = _
    rw [forest cs (by simpa [BT.children_mk] using ih)]
    simp [BT.children_mk]

/-- C3, amended: the toggle changes only the node's own membership when
*expanding* (its id was absent); when *collapsing* it removes the node's id
*and* every descendant id (the non-empty ids of its whole subtree), so
previously expanded descendants are forgotten rather than remembered.  Ids
outside the node's subtree are unaffected in both directions. -/
theorem handleNodeDoubleClick_toggle_spec (node : BT) (previous : List String)
    (hid : node.id ≠ "") :
    (node.id ∉ previous →
      ∀ x, x ∈ handleNodeDoubleClick node previous ↔ x ∈ previous ∨ x = node.id) ∧
    (node.id ∈ previous →
      ∀ x, x ∈ handleNodeDoubleClick node previous ↔
        x ∈ previous ∧ x ≠ node.id ∧ x ∉ (BT.idsF node.children).filter (fun y => y ≠ "")) := by
  constructor
  · intro habs x
    simp only [handleNodeDoubleClick, if_neg hid, if_neg habs, jsSetAdd]
    by_cases hx : node.id ∈ previous
    · exact absurd hx habs
    · simp [if_neg hx]
  · intro hmem x
    rw [show handleNodeDoubleClick node previous =
        (previous.filter (fun y => y ≠ node.id)).filter
          (fun y => y ∉ collectDescendantIds node) by
      simp [handleNodeDoubleClick, if_neg hid, if_pos hmem]]
    rw [collectDescendantIds_eq_filter]
    simp only [List.mem_filter, decide_eq_true_eq, decide_not, Bool.not_eq_true',
      decide_eq_false_iff_not, and_assoc]

/-- Witness for C3's amended theorem at the collapse of `A` in the example
scenario with `{r, A}` expanded: `A` itself is removed and `r` survives. -/
theorem handleNodeDoubleClick_toggle_spec_witness :
    ("A" ∈ handleNodeDoubleClick exA ["r", "A"] ↔
      "A" ∈ ["r", "A"] ∧ "A" ≠ exA.id ∧
        "A" ∉ (BT.idsF exA.children).filter (fun y => y ≠ "")) ∧
    ("r" ∈ handleNodeDoubleClick exA ["r", "A"] ↔
      "r" ∈ ["r", "A"] ∧ "r" ≠ exA.id ∧
        "r" ∉ (BT.idsF exA.children).filter (fun y => y ≠ "")) := by
  have h := (handleNodeDoubleClick_toggle_spec exA ["r", "A"] (by decide)).2 (by decide)
  exact ⟨h "A", h "r"⟩

/-- Counterexample to C3 as stated: collapsing `A` in the tree `r → A → c → g`
with expanded set `{A, c}` also deletes the expanded descendant `c` (an id
other than `A`), and re-expanding `A` does not restore it, so the prior
detail beneath `A` is lost. -/
theorem handleNodeDoubleClick_collapse_forgets_descendants :
    "c" ≠ "A" ∧
    "c" ∈ (["A", "c"] : List String) ∧
    "c" ∉ handleNodeDoubleClick cxA ["A", "c"] ∧
    "c" ∉ handleNodeDoubleClick cxA (handleNodeDoubleClick cxA ["A", "c"]) := by
  decide

/-! ## C4: selection pruning and rolled-up sizes in the normalizer -/

mutual

/-- Structural induction over `FolderItem`, with the inductive hypothesis
available for every member of the children list. -/
theorem FolderItem.folderInductionOn {P : FolderItem → Prop}
    (h : ∀ i n sel tsz cs, (∀ c ∈ cs, P c) → P (.mk i n sel tsz cs)) :
    ∀ f, P f
  | .mk i n sel tsz cs => h i n sel tsz cs (fun c hc => FolderItem.folderInductionOnF h cs c hc)

/-- Forest part of `FolderItem.folderInductionOn`. -/
theorem FolderItem.folderInductionOnF {P : FolderItem → Prop}
    (h : ∀ i n sel tsz cs, (∀ c ∈ cs, P c) → P (.mk i n sel tsz cs)) :
    ∀ (l : List FolderItem), ∀ c ∈ l, P c
  | f :: fs, c, hc =>
    (List.mem_cons.mp hc).elim (fun hc1 => hc1 ▸ FolderItem.folderInductionOn h f)
      (fun hc2 => FolderItem.folderInductionOnF h fs c hc2)

end

/-- The `nextContext` built for a selected folder (src/unnamed/part_015 lines
47-52). -/
def nextContext (f : FolderItem) (ctx : TraverseContext) : TraverseContext :=
  ⟨if ctx.depth = 0 then some f.id else ctx.serviceId, some f.id, ctx.depth + 1⟩

/-- The `computedSize` of a selected folder: own reported size maxed with the
total of the visited children. -/
def collectedSize (f : FolderItem) (ctx : TraverseContext) : Int :=
  max (ensurePositiveNumber f.totalSize)
    (collectBubbleNodes f.children (nextContext f ctx)).2

/-- The `BubbleNode` pushed for a selected folder. -/
def collectedNode (f : FolderItem) (ctx : TraverseContext) : BubbleNode :=
  ⟨f.id, f.name, collectedSize f ctx, ctx.depth, ctx.parentId,
    if ctx.depth = 0 then some f.id else ctx.serviceId⟩

/-- Unfolding of `collectBubbleNode` on a selected folder. -/
theorem collectBubbleNode_selected (f : FolderItem) (hsel : f.isSelected = true)
    (ctx : TraverseContext) :
    collectBubbleNode f ctx =
      ((collectBubbleNodes f.children (nextContext f ctx)).1 ++ [collectedNode f ctx],
        collectedSize f ctx) := by
  cases f with
  | mk i n sel tsz cs =>
    cases hsel
    simp [collectBubbleNode, nextContext, collectedNode, collectedSize,
      FolderItem.id, FolderItem.name, FolderItem.totalSize, FolderItem.children]

/-- Unfolding of `collectBubbleNode` on an unselected folder. -/
theorem collectBubbleNode_unselected (f : FolderItem) (hsel : f.isSelected = false)
    (ctx : TraverseContext) : collectBubbleNode f ctx = ([], 0) := by
  cases f with
  | mk i n sel tsz cs =>
    cases hsel
    simp [collectBubbleNode]

/-- Every node emitted by the traversal of one folder sits at or below the
context depth. -/
theorem collectBubbleNode_depth_ge (f : FolderItem) :
    ∀ ctx b, b ∈ (collectBubbleNode f ctx).1 → ctx.depth ≤ b.depth := by
  induction f using FolderItem.folderInductionOn with
  | _ i n sel tsz cs ih =>
    have forest : ∀ (l : List FolderItem),
        (∀ c ∈ l, ∀ ctx b, b ∈ (collectBubbleNode c ctx).1 → ctx.depth ≤ b.depth) →
        ∀ ctx b, b ∈ (collectBubbleNodes l ctx).1 → ctx.depth ≤ b.depth := by
      intro l
      induction l with
      | nil => intro _ ctx b hb; simp [collectBubbleNodes] at hb
      | cons c rest ihl =>
        intro hall ctx b hb
        simp only [collectBubbleNodes, List.mem_append] at hb
        rcases hb with hb | hb
        · exact hall c (List.mem_cons_self c rest) ctx b hb
        · exact ihl (fun c0 hc0 => hall c0 (List.mem_cons_of_mem c hc0)) ctx b hb
    intro ctx b hb
    by_cases hsel : sel = true
    · subst hsel
      rw [collectBubbleNode_selected (.mk i n true tsz cs) rfl] at hb
      simp only [List.mem_append, List.mem_singleton] at hb
      rcases hb with hb | hb
      · have := forest cs (by simpa [FolderItem.children] using ih)
          (nextContext (.mk i n true tsz cs) ctx) b hb
        simp only [nextContext] at this
        omega
      · subst hb
        simp [collectedNode]
    · have hsel' : sel = false := by simpa using hsel
      subst hsel'
      rw [collectBubbleNode_unselected (.mk i n false tsz cs) rfl] at hb
      simp at hb

/-- Forest version of `collectBubbleNode_depth_ge`. -/
theorem collectBubbleNodes_depth_ge (l : List FolderItem) (ctx : TraverseContext)
    (b : BubbleNode) (hb : b ∈ (collectBubbleNodes l ctx).1) : ctx.depth ≤ b.depth := by
  induction l with
  | nil => simp [collectBubbleNodes] at hb
  | cons c rest ihl =>
    simp only [collectBubbleNodes, List.mem_append] at hb
    rcases hb with hb | hb
    · exact collectBubbleNode_depth_ge c ctx b hb
    · exact ihl hb

/-- The branch total returned by the traversal equals the summed sizes of
exactly the nodes it emitted at the context depth (the nodes of the folders
of the list itself, not their descendants). -/
theorem collectBubbleNode_total_eq (f : FolderItem) :
    ∀ ctx, (collectBubbleNode f ctx).2 =
      (((collectBubbleNode f ctx).1.filter
          (fun b => b.depth = ctx.depth)).map BubbleNode.size).sum := by
  induction f using FolderItem.folderInductionOn with
  | _ i n sel tsz cs ih =>
    intro ctx
    by_cases hsel : sel = true
    · subst hsel
      rw [collectBubbleNode_selected (.mk i n true tsz cs) rfl]
      have hchild : ∀ b ∈ (collectBubbleNodes cs (nextContext (.mk i n true tsz cs) ctx)).1,
          ¬ (b.depth = ctx.depth) := by
        intro b hb
        have := collectBubbleNodes_depth_ge cs (nextContext (.mk i n true tsz cs) ctx) b hb
        simp only [nextContext] at this
        omega
      simp only [List.filter_append]
      rw [List.filter_eq_nil_iff.mpr (by
        intro b hb
        simpa using hchild b (by simpa [FolderItem.children] using hb))]
      simp [collectedNode]
    · have hsel' : sel = false := by simpa using hsel
      subst hsel'
      rw [collectBubbleNode_unselected (.mk i n false tsz cs) rfl]
      simp

/-- Forest version of `collectBubbleNode_total_eq`. -/
theorem collectBubbleNodes_total_eq (l : List FolderItem) (ctx : TraverseContext) :
    (collectBubbleNodes l ctx).2 =
      (((collectBubbleNodes l ctx).1.filter
          (fun b => b.depth = ctx.depth)).map BubbleNode.size).sum := by
  induction l with
  | nil => simp [collectBubbleNodes]
  | cons c rest ihl =>
    simp only [collectBubbleNodes, List.filter_append, List.map_append, List.sum_append]
    rw [← collectBubbleNode_total_eq c ctx, ← ihl]

/-- C4: the normalizer visits exactly the selected folders — an unselected
folder and its whole subtree contribute no nodes and no size — and a visited
folder's node carries `size = max(own reported size, sum of the visited
children's computed sizes)`, hence never smaller than the total of its
visible contents. -/
theorem collectBubbleNodes_selection_and_size_spec
    (f : FolderItem) (rest : List FolderItem) (ctx : TraverseContext) :
    (f.isSelected = false →
      collectBubbleNodes (f :: rest) ctx = collectBubbleNodes rest ctx) ∧
    (f.isSelected = true →
      collectedNode f ctx ∈ (collectBubbleNodes (f :: rest) ctx).1 ∧
      (collectedNode f ctx).size =
        max (ensurePositiveNumber f.totalSize)
          (collectBubbleNodes f.children (nextContext f ctx)).2 ∧
      (collectBubbleNodes f.children (nextContext f ctx)).2 =
        (((collectBubbleNodes f.children (nextContext f ctx)).1.filter
            (fun b => b.depth = ctx.depth + 1)).map BubbleNode.size).sum ∧
      (((collectBubbleNodes f.children (nextContext f ctx)).1.filter
          (fun b => b.depth = ctx.depth + 1)).map BubbleNode.size).sum ≤
        (collectedNode f ctx).size) := by
  constructor
  · intro hsel
    simp only [collectBubbleNodes, collectBubbleNode_unselected f hsel]
    simp
  · intro hsel
    have htot := collectBubbleNodes_total_eq f.children (nextContext f ctx)
    have hdepth : (nextContext f ctx).depth = ctx.depth + 1 := rfl
    refine ⟨?_, rfl, ?_, ?_⟩
    · simp only [collectBubbleNodes, collectBubbleNode_selected f hsel, List.mem_append]
      exact Or.inl (by simp)
    · rw [htot, hdepth]
    · rw [← hdepth, ← htot]
      exact le_max_right _ _

/-- Witness for C4 at a concrete selected folder with one selected and one
unselected child. -/
theorem collectBubbleNodes_selection_and_size_spec_witness :
    (collectBubbleNodes
        [FolderItem.mk "u" "u" false (some 99) []] ⟨none, none, 0⟩ =
      collectBubbleNodes [] ⟨none, none, 0⟩) ∧
    collectedNode
        (.mk "f" "f" true (some 3)
          [.mk "c" "c" true (some 5) [], .mk "u" "u" false (some 99) []])
        ⟨none, none, 0⟩ ∈
      (collectBubbleNodes
        [FolderItem.mk "f" "f" true (some 3)
          [.mk "c" "c" true (some 5) [], .mk "u" "u" false (some 99) []]]
        ⟨none, none, 0⟩).1 := by
  refine ⟨?_, ?_⟩
  · exact (collectBubbleNodes_selection_and_size_spec
      (.mk "u" "u" false (some 99) []) [] ⟨none, none, 0⟩).1 rfl
  · exact ((collectBubbleNodes_selection_and_size_spec
      (.mk "f" "f" true (some 3)
        [.mk "c" "c" true (some 5) [], .mk "u" "u" false (some 99) []])
      [] ⟨none, none, 0⟩).2 rfl).1

/-! ## C5: child ordering of `buildBubbleTree` -/

/-- C5, amended: each children array (after the `sort(sortBySizeDesc)` of
src/unnamed/part_015 line 120) is ordered by descending size, is a
permutation of the children in map-insertion order, and — the comparator
being only `b.size - a.size` and `Array.prototype.sort` stable — equal-size
children keep their relative insertion order; there is no name tie-break.
The order is still fully deterministic for identical input. -/
theorem buildBubbleTree_children_sorted_desc_stable
    (nodes : List BubbleNode) (minDepth : Nat) (p : String) :
    ((buildBubbleTree nodes minDepth).childrenOf p).Sorted sizeDescBN ∧
    ((buildBubbleTree nodes minDepth).childrenOf p).Perm
      (childEntries (mapEntriesOf
        (nodes.filter (fun n => 0 < n.size && minDepth ≤ n.depth))) p) ∧
    (∀ a b, sizeDescBN a b →
      [a, b].Sublist (childEntries (mapEntriesOf
        (nodes.filter (fun n => 0 < n.size && minDepth ≤ n.depth))) p) →
      [a, b].Sublist ((buildBubbleTree nodes minDepth).childrenOf p)) :=
  ⟨List.sorted_insertionSort sizeDescBN _,
   List.perm_insertionSort sizeDescBN _,
   fun _ _ hab hsub => List.pair_sublist_insertionSort hab hsub⟩

/-- Witness for C5's amended theorem at a concrete parent with three
equal-size children. -/
theorem buildBubbleTree_children_sorted_desc_stable_witness :
    ((buildBubbleTree
        [⟨"p", "p", 10, 0, none, none⟩, ⟨"x", "b", 5, 1, some "p", none⟩,
         ⟨"y", "a", 5, 1, some "p", none⟩, ⟨"z", "c", 5, 1, some "p", none⟩]
        0).childrenOf "p").Sorted sizeDescBN ∧
    [(⟨"x", "b", 5, 1, some "p", none⟩ : BubbleNode), ⟨"y", "a", 5, 1, some "p", none⟩].Sublist
      ((buildBubbleTree
        [⟨"p", "p", 10, 0, none, none⟩, ⟨"x", "b", 5, 1, some "p", none⟩,
         ⟨"y", "a", 5, 1, some "p", none⟩, ⟨"z", "c", 5, 1, some "p", none⟩]
        0).childrenOf "p") := by
  have h := buildBubbleTree_children_sorted_desc_stable
    [⟨"p", "p", 10, 0, none, none⟩, ⟨"x", "b", 5, 1, some "p", none⟩,
     ⟨"y", "a", 5, 1, some "p", none⟩, ⟨"z", "c", 5, 1, some "p", none⟩] 0 "p"
  exact ⟨h.1, h.2.2 _ _ (by decide) (by decide)⟩

/-- Counterexample to C5 as stated: with three equal-size children inserted
in name order `b, a, c`, the produced children array keeps insertion order
`b, a, c`, which is sorted neither by ascending nor by descending name among
the ties — there is no name tie-break in the code. -/
theorem buildBubbleTree_children_name_tiebreak_counterexample :
    ((buildBubbleTree
        [⟨"p", "p", 10, 0, none, none⟩, ⟨"x", "b", 5, 1, some "p", none⟩,
         ⟨"y", "a", 5, 1, some "p", none⟩, ⟨"z", "c", 5, 1, some "p", none⟩]
        0).childrenOf "p").map BubbleNode.name = ["b", "a", "c"] ∧
    ¬ ((buildBubbleTree
        [⟨"p", "p", 10, 0, none, none⟩, ⟨"x", "b", 5, 1, some "p", none⟩,
         ⟨"y", "a", 5, 1, some "p", none⟩, ⟨"z", "c", 5, 1, some "p", none⟩]
        0).childrenOf "p").Pairwise
      (fun a b => b.size < a.size ∨ (a.size = b.size ∧ ¬ b.name.data < a.name.data)) ∧
    ¬ ((buildBubbleTree
        [⟨"p", "p", 10, 0, none, none⟩, ⟨"x", "b", 5, 1, some "p", none⟩,
         ⟨"y", "a", 5, 1, some "p", none⟩, ⟨"z", "c", 5, 1, some "p", none⟩]
        0).childrenOf "p").Pairwise
      (fun a b => b.size < a.size ∨ (a.size = b.size ∧ ¬ a.name.data < b.name.data)) := by
  decide

/-! ## C9 and C10: orphan roots and the positive-size invariant -/

/-- C9: a surviving entry whose `parentId` matches no entry id is pushed to
`roots` (treated as an orphan root); construction is total, nothing throws. -/
theorem buildBubbleTree_dangling_parent_orphan_root
    (nodes : List BubbleNode) (minDepth : Nat) (n : BubbleNode) (p : String)
    (hn : n ∈ (buildBubbleTree nodes minDepth).entries)
    (hp : n.parentId = some p)
    (hmiss : ∀ e ∈ (buildBubbleTree nodes minDepth).entries, e.id ≠ p) :
    n ∈ (buildBubbleTree nodes minDepth).roots := by
  have hno : isChildEntry ((buildBubbleTree nodes minDepth).entries) n = false := by
    simp only [isChildEntry, hp]
    have : ((buildBubbleTree nodes minDepth).entries).any (fun e => e.id = p) = false := by
      rw [List.any_eq_false]
      intro e he
      simpa using hmiss e he
    simp [this]
  have hroot : n ∈ rootEntries ((buildBubbleTree nodes minDepth).entries) :=
    List.mem_filter.mpr ⟨hn, by simp [hno]⟩
  exact (List.perm_insertionSort sizeDescBN _).symm.subset hroot

/-- Witness for C9 at a single node whose parent id matches nothing. -/
theorem buildBubbleTree_dangling_parent_orphan_root_witness :
    (⟨"a", "a", 1, 0, some "ghost", none⟩ : BubbleNode) ∈
      (buildBubbleTree [⟨"a", "a", 1, 0, some "ghost", none⟩] 0).roots :=
  buildBubbleTree_dangling_parent_orphan_root
    [⟨"a", "a", 1, 0, some "ghost", none⟩] 0 ⟨"a", "a", 1, 0, some "ghost", none⟩
    "ghost" (by decide) (by decide) (by decide)

/-- Every element of `mapSet l n` is `n` or an element of `l`. -/
theorem mem_mapSet {l : List BubbleNode} {n e : BubbleNode} (he : e ∈ mapSet l n) :
    e = n ∨ e ∈ l := by
  unfold mapSet at he
  by_cases hc : l.any (fun x => x.id = n.id)
  · rw [if_pos hc] at he
    rcases List.mem_map.mp he with ⟨x, hx, hxe⟩
    by_cases hid : x.id = n.id
    · simp only [if_pos hid] at hxe
      exact Or.inl hxe.symm
    · simp only [if_neg hid] at hxe
      exact Or.inr (hxe ▸ hx)
  · rw [if_neg hc] at he
    rcases List.mem_append.mp he with h | h
    · exact Or.inr h
    · exact Or.inl (by simpa using h)

/-- A property holding on a list and an accumulator survives `foldl mapSet`. -/
theorem foldl_mapSet_forall (P : BubbleNode → Prop) :
    ∀ (l acc : List BubbleNode), (∀ e ∈ acc, P e) → (∀ x ∈ l, P x) →
      ∀ e ∈ l.foldl mapSet acc, P e := by
  intro l
  induction l with
  | nil => intro acc hacc _ e he; exact hacc e he
  | cons x rest ih =>
    intro acc hacc hl e he
    refine ih (mapSet acc x) ?_ (fun y hy => hl y (List.mem_cons_of_mem x hy)) e he
    intro e0 he0
    rcases mem_mapSet he0 with h | h
    · exact h ▸ hl x (List.mem_cons_self x rest)
    · exact hacc e0 h

/-- Every map entry satisfies anything the filtered input satisfies. -/
theorem mapEntriesOf_forall (P : BubbleNode → Prop) (l : List BubbleNode)
    (hl : ∀ x ∈ l, P x) : ∀ e ∈ mapEntriesOf l, P e :=
  foldl_mapSet_forall P l [] (by simp) hl

/-- C10: every node stored by `buildBubbleTree` — map entry, root, or member
of a children array — has size > 0, and an input node of size 0 appears
nowhere in the result. -/
theorem buildBubbleTree_positive_size_invariant (nodes : List BubbleNode)
    (minDepth : Nat) :
    (∀ e ∈ (buildBubbleTree nodes minDepth).entries, 0 < e.size) ∧
    (∀ r ∈ (buildBubbleTree nodes minDepth).roots, 0 < r.size) ∧
    (∀ p, ∀ c ∈ (buildBubbleTree nodes minDepth).childrenOf p, 0 < c.size) ∧
    (∀ b ∈ nodes, b.size = 0 →
      b ∉ (buildBubbleTree nodes minDepth).entries ∧
      b ∉ (buildBubbleTree nodes minDepth).roots ∧
      ∀ p, b ∉ (buildBubbleTree nodes minDepth).childrenOf p) := by
  have hent : ∀ e ∈ (buildBubbleTree nodes minDepth).entries, 0 < e.size := by
    refine mapEntriesOf_forall _ _ ?_
    intro x hx
    have := (List.mem_filter.mp hx).2
    simp only [Bool.and_eq_true, decide_eq_true_eq] at this
    exact this.1
  have hroots : ∀ r ∈ (buildBubbleTree nodes minDepth).roots, 0 < r.size := by
    intro r hr
    have hr' : r ∈ rootEntries ((buildBubbleTree nodes minDepth).entries) :=
      (List.perm_insertionSort sizeDescBN _).subset hr
    exact hent r (List.mem_filter.mp hr').1
  have hchild : ∀ p, ∀ c ∈ (buildBubbleTree nodes minDepth).childrenOf p, 0 < c.size := by
    intro p c hc
    have hc' : c ∈ childEntries ((buildBubbleTree nodes minDepth).entries) p :=
      (List.perm_insertionSort sizeDescBN _).subset hc
    exact hent c (List.mem_filter.mp hc').1
  refine ⟨hent, hroots, hchild, ?_⟩
  intro b _ hb0
  refine ⟨fun h => ?_, fun h => ?_, fun p h => ?_⟩
  · exact absurd hb0 (by have := hent b h; omega)
  · exact absurd hb0 (by have := hroots b h; omega)
  · exact absurd hb0 (by have := hchild p b h; omega)

/-- Witness for C10: a selected folder whose computed size is 0 yields a
`BubbleNode` of size 0, and that node reaches neither the entries nor the
roots of the tree. -/
theorem buildBubbleTree_positive_size_invariant_witness :
    (⟨"z", "z", 0, 0, none, none⟩ : BubbleNode) ∉
      (buildBubbleTree [⟨"z", "z", 0, 0, none, none⟩, ⟨"b", "b", 2, 0, none, none⟩] 0).entries ∧
    (⟨"z", "z", 0, 0, none, none⟩ : BubbleNode) ∉
      (buildBubbleTree [⟨"z", "z", 0, 0, none, none⟩, ⟨"b", "b", 2, 0, none, none⟩] 0).roots := by
  have h := (buildBubbleTree_positive_size_invariant
    [⟨"z", "z", 0, 0, none, none⟩, ⟨"b", "b", 2, 0, none, none⟩] 0).2.2.2
    ⟨"z", "z", 0, 0, none, none⟩ (by decide) rfl
  exact ⟨h.1, h.2.1⟩

/-! ## C6: planner determinism from a cold start at target -/

/-- C6: with every node position already defined (the cold start at target),
`ensurePosition` on an empty cache never reaches its jitter branch, so two
runs agree for any random streams, any fuel budgets, and any values of the
trigonometric functions; and `getNodeId` of a node with an explicit id never
consumes the random fallback.  Together with `computeVisibleGraph` being a
pure function of `(tree, expandedIds)` — it takes no other input — planning
is deterministic. -/
theorem planner_cold_start_deterministic
    (s : IdSource) (v : String) (hs : s.id = some v)
    (cosF sinF cosG sinG : ℚ → ℚ) (lookup : PosLookup) (w h : ℚ)
    (fuel fuel2 : Nat) (hf : 0 < fuel) (hf2 : 0 < fuel2)
    (n : PosNode) (hn : optTruthy n.parentId = false ∨ (n.x.isSome ∧ n.y.isSome))
    (rnd rnd2 : String) (rng rng2 : List ℚ) :
    getNodeId s rnd = v ∧ getNodeId s rnd2 = v ∧
    (ensurePosition cosF sinF lookup w h fuel n [] rng).1 =
      (ensurePosition cosG sinG lookup w h fuel2 n [] rng2).1 := by
  refine ⟨by simp [getNodeId, hs], by simp [getNodeId, hs], ?_⟩
  cases fuel with
  | zero => omega
  | succ m =>
    cases fuel2 with
    | zero => omega
    | succ m2 =>
      by_cases hro : optTruthy n.parentId = false
      · simp [ensurePosition, hro]
      · have hro' : optTruthy n.parentId = true := by simpa using hro
        have hxy : n.x.isSome ∧ n.y.isSome := hn.resolve_left hro
        obtain ⟨a, ha⟩ := Option.isSome_iff_exists.mp hxy.1
        obtain ⟨b, hb⟩ := Option.isSome_iff_exists.mp hxy.2
        simp [ensurePosition, hro', cacheGet, ha, hb]

/-- Witness for C6 at a parent-linked node whose position is already set. -/
theorem planner_cold_start_deterministic_witness :
    getNodeId ⟨some "n1", none⟩ "abc" = "n1" ∧
    getNodeId ⟨some "n1", none⟩ "xyz" = "n1" ∧
    (ensurePosition (fun q => q) (fun q => q) [] 800 600 1
        ⟨"k", some "par", 100, 0, some 5, some 7⟩ [] [1/2]).1 =
      (ensurePosition (fun q => q + 1) (fun q => q - 1) [] 800 600 2
        ⟨"k", some "par", 100, 0, some 5, some 7⟩ [] [1/3]).1 :=
  planner_cold_start_deterministic ⟨some "n1", none⟩ "n1" rfl
    (fun q => q) (fun q => q) (fun q => q + 1) (fun q => q - 1) [] 800 600
    1 2 (by decide) (by decide)
    ⟨"k", some "par", 100, 0, some 5, some 7⟩ (Or.inr (by constructor <;> rfl))
    "abc" "xyz" [1/2] [1/3]

/-! ## C7: evenly spaced child angles -/

theorem mkOSN_siblingIndex (t : BT) (d gi si sc : Nat) :
    (mkOSN t d gi si sc).siblingIndex = si := by
  cases t with
  | mk i n s dep pid sv cs => rfl

theorem mkOSN_siblingCount (t : BT) (d gi si sc : Nat) :
    (mkOSN t d gi si sc).siblingCount = sc := by
  cases t with
  | mk i n s dep pid sv cs => rfl

/-- The planned angle (in turns) of a non-root node with a positive sibling
count: offset `-1/4` (the source's `-π/2`) plus `siblingIndex / siblingCount`
of a full circle. -/
theorem mkOSN_targetAngle (t : BT) (d gi si sc : Nat) (hd : d ≠ 0) (hsc : 0 < sc) :
    (mkOSN t d gi si sc).targetAngle = -(1 : ℚ)/4 + (si : ℚ) / (sc : ℚ) := by
  cases t with
  | mk i n s dep pid sv cs => simp [mkOSN, hd, hsc]

/-- Unfolding of the node list produced by `traverseNode`. -/
theorem traverseNode_fst (exp : List String) (t : BT) (d : Nat) (par : Option String)
    (gi si sc : Nat) :
    (traverseNode exp t d par gi si sc).1 =
      mkOSN t d gi si sc ::
        (if t.id ∈ exp then
          (traverseChildren exp t.children d t.id gi 0 t.children.length).1
         else []) := by
  cases t with
  | mk i n s dep pid sv cs =>
    by_cases hie : i ∈ exp
    · simp [traverseNode, BT.id_mk, BT.children_mk, if_pos, hie]
    · simp [traverseNode, BT.id_mk, BT.children_mk, hie]

/-- The child at position `idx` of the `forEach` loop is traversed with
sibling index `j + idx` (where `j` is the running start index), and its own
decorated record lands in the loop's output. -/
theorem traverseChildren_contains (exp : List String) (l : List BT) :
    ∀ (pd : Nat) (pid : String) (pg j count idx : Nat) (h : idx < l.length),
      mkOSN l[idx] (pd + 1) (if pd = 0 then j + idx else pg) (j + idx) count ∈
        (traverseChildren exp l pd pid pg j count).1 := by
  induction l with
  | nil => intro _ _ _ _ _ idx h; simp at h
  | cons c rest ih =>
    intro pd pid pg j count idx h
    cases idx with
    | zero =>
      simp only [traverseChildren, List.mem_append, List.getElem_cons_zero, Nat.add_zero]
      exact Or.inl (by rw [traverseNode_fst]; exact List.mem_cons_self _ _)
    | succ k =>
      have harith : j + (k + 1) = (j + 1) + k := by omega
      simp only [traverseChildren, List.mem_append, List.getElem_cons_succ, harith]
      exact Or.inr (ih pd pid pg (j + 1) count k (by simpa using Nat.lt_of_succ_lt_succ h))

/-- The output of the traversal of any member of the `forEach` loop embeds
into the loop's output, for suitable group/sibling parameters. -/
theorem traverseChildren_subset (exp : List String) (l : List BT) :
    ∀ (pd : Nat) (pid : String) (pg j count : Nat) (c : BT), c ∈ l →
      ∃ g2 s2, ∀ x ∈ (traverseNode exp c (pd + 1) (some pid) g2 s2 count).1,
        x ∈ (traverseChildren exp l pd pid pg j count).1 := by
  induction l with
  | nil => intro _ _ _ _ _ c hc; simp at hc
  | cons c0 rest ih =>
    intro pd pid pg j count c hc
    rcases List.mem_cons.mp hc with rfl | hc'
    · exact ⟨if pd = 0 then j else pg, j, fun x hx => by
        simp only [traverseChildren, List.mem_append]; exact Or.inl hx⟩
    · obtain ⟨g2, s2, hsub⟩ := ih pd pid pg (j + 1) count c hc'
      exact ⟨g2, s2, fun x hx => by
        simp only [traverseChildren, List.mem_append]; exact Or.inr (hsub x hx)⟩

/-- If the traversal reaches an expanded node `p`, then for each index `idx`
into `p`'s children the output contains the decorated record of that child,
carrying sibling index `idx`, sibling count `|p.children|`, and a positive
depth. -/
theorem traverse_contains_children_of_vis (exp : List String) {t p : BT}
    (hv : Vis exp t p) (hpe : p.id ∈ exp) :
    ∀ (d : Nat) (par : Option String) (gi si sc idx : Nat) (h : idx < p.children.length),
      ∃ d2 g2, mkOSN p.children[idx] (d2 + 1) g2 idx p.children.length ∈
        (traverseNode exp t d par gi si sc).1 := by
  induction hv with
  | refl t =>
    intro d par gi si sc idx h
    refine ⟨d, if d = 0 then idx else gi, ?_⟩
    rw [traverseNode_fst, if_pos hpe]
    have := traverseChildren_contains exp t.children d t.id gi 0 t.children.length idx h
    simpa using List.mem_cons_of_mem _ this
  | step ht hc hv2 ih =>
    intro d par gi si sc idx h
    rename_i t0 c0 m0
    obtain ⟨g2, s2, hsub⟩ :=
      traverseChildren_subset exp t0.children d t0.id gi 0 t0.children.length c0 hc
    obtain ⟨d2, g3, hmem⟩ := ih hpe (d + 1) (some t0.id) g2 s2 t0.children.length idx h
    refine ⟨d2, g3, ?_⟩
    rw [traverseNode_fst, if_pos ht]
    exact List.mem_cons_of_mem _ (hsub _ hmem)

/-- C7: for a visible expanded parent `p` with `k ≥ 1` children in an
id-unique hierarchy, the planner gives the `idx`-th child the target angle
`-1/4 + idx/k` turns (the source's `-π/2 + idx·2π/k` radians): angles evenly
spaced at `1/k` turn (`2π/k`) from the fixed offset `-1/4` turn (`-π/2`);
consecutive children differ by exactly `1/k` turn, and for `k = 2` the two
children's angles differ by `1/2` turn (180°). -/
theorem computeVisibleGraph_child_angles_evenly_spaced
    (root : BT) (exp : List String) (p : BT)
    (hnd : root.ids.Nodup)
    (hmem : p ∈ root.allNodes)
    (hvis : p.id ∈ visibleIds root exp)
    (hexp : p.id ∈ exp) :
    (∀ idx (h : idx < p.children.length),
      ∃ osn ∈ (computeVisibleGraph (some root) exp).1,
        osn.id = (p.children[idx]).id ∧
        osn.siblingIndex = idx ∧
        osn.siblingCount = p.children.length ∧
        osn.targetAngle = -(1 : ℚ)/4 + (idx : ℚ) / (p.children.length : ℚ)) ∧
    (∀ idx : Nat, idx + 1 < p.children.length →
      (-(1 : ℚ)/4 + ((idx : ℚ) + 1) / (p.children.length : ℚ)) -
        (-(1 : ℚ)/4 + (idx : ℚ) / (p.children.length : ℚ)) =
          1 / (p.children.length : ℚ)) ∧
    (p.children.length = 2 →
      ∀ h0 : 0 < p.children.length, ∀ h1 : 1 < p.children.length,
      ∃ o1 ∈ (computeVisibleGraph (some root) exp).1,
        ∃ o2 ∈ (computeVisibleGraph (some root) exp).1,
          o1.id = (p.children[0]).id ∧ o2.id = (p.children[1]).id ∧
          o2.targetAngle - o1.targetAngle = 1/2) := by
  have hVisP : Vis exp root p := by
    rcases mem_visibleIds.mp hvis with ⟨m, hv, hx⟩
    have : m = p := BT.id_inj hnd hv.mem_allNodes hmem hx
    exact this ▸ hv
  have main : ∀ idx (h : idx < p.children.length),
      ∃ osn ∈ (computeVisibleGraph (some root) exp).1,
        osn.id = (p.children[idx]).id ∧
        osn.siblingIndex = idx ∧
        osn.siblingCount = p.children.length ∧
        osn.targetAngle = -(1 : ℚ)/4 + (idx : ℚ) / (p.children.length : ℚ) := by
    intro idx h
    obtain ⟨d2, g2, hmem2⟩ := traverse_contains_children_of_vis exp hVisP hexp
      0 none 0 0 root.children.length idx h
    refine ⟨mkOSN p.children[idx] (d2 + 1) g2 idx p.children.length, ?_, ?_, ?_, ?_, ?_⟩
    · simpa [computeVisibleGraph] using hmem2
    · exact mkOSN_id _ _ _ _ _
    · exact mkOSN_siblingIndex _ _ _ _ _
    · exact mkOSN_siblingCount _ _ _ _ _
    · exact mkOSN_targetAngle _ _ _ _ _ (Nat.succ_ne_zero d2) (lt_of_le_of_lt (Nat.zero_le _) h)
  refine ⟨main, ?_, ?_⟩
  · intro idx hlt
    have hk : (p.children.length : ℚ) ≠ 0 := by
      have : 0 < p.children.length := by omega
      exact_mod_cast Nat.pos_iff_ne_zero.mp this
    field_simp
    left
    ring
  · intro hk2 h0 h1
    obtain ⟨o1, ho1, hid1, _, _, hang1⟩ := main 0 h0
    obtain ⟨o2, ho2, hid2, _, _, hang2⟩ := main 1 h1
    refine ⟨o1, ho1, o2, ho2, hid1, hid2, ?_⟩
    rw [hang1, hang2, hk2]
    norm_num

/-- Witness for C7 at the example scenario: `A` is visible and expanded with
exactly the two children `A1`, `A2`, whose planned angles differ by half a
turn (180°). -/
theorem computeVisibleGraph_child_angles_evenly_spaced_witness :
    ∃ o1 ∈ (computeVisibleGraph (some exRoot) ["r", "A"]).1,
      ∃ o2 ∈ (computeVisibleGraph (some exRoot) ["r", "A"]).1,
        o1.id = "A1" ∧ o2.id = "A2" ∧ o2.targetAngle - o1.targetAngle = 1/2 := by
  have h := (computeVisibleGraph_child_angles_evenly_spaced exRoot ["r", "A"] exA
    (by decide) (by simp [exRoot, exA, BT.allNodes, BT.allNodesF])
    (by decide) (by decide)).2.2
    (by simp [exA, BT.children_mk]) (by simp [exA, BT.children_mk])
    (by simp [exA, BT.children_mk])
  obtain ⟨o1, ho1, o2, ho2, h1, h2, h3⟩ := h
  refine ⟨o1, ho1, o2, ho2, ?_, ?_, h3⟩
  · simpa [exA, exA1, BT.children_mk, BT.id_mk] using h1
  · simpa [exA, exA2, BT.children_mk, BT.id_mk] using h2

/-! ## C8: the zero-distance guard in the force computations -/

/-- C8, amended: both guarded force computations divide only by
`Math.sqrt(...) || 1`, which is never zero, so (in this exact-arithmetic
model of the finite run) no update is undefined; the substitute at zero
distance is the fixed value 1, not a small epsilon, and *no randomized
tie-break angle exists*: the updates ignore the random stream entirely, and
at exactly coincident positions the radial/fan displacement vanishes, the
update degenerating to the plain spring term. -/
theorem force_zero_distance_guard_spec (sqrtF : ℚ → ℚ) (h0 : sqrtF 0 = 0) :
    (∀ s : ℚ, jsOrOne s ≠ 0) ∧
    (∀ nodeX nodeY vx vy targetX targetY parentLayout orbitRadius rng rng2,
      orbitalForceUpdate sqrtF nodeX nodeY vx vy targetX targetY parentLayout
          orbitRadius rng =
        orbitalForceUpdate sqrtF nodeX nodeY vx vy targetX targetY parentLayout
          orbitRadius rng2) ∧
    (∀ nodeX nodeY parentX parentY childX childY childVx childVy childIndex
        childCount isFolderFoxParent rng rng2,
      positionChildrenUpdate sqrtF nodeX nodeY parentX parentY childX childY
          childVx childVy childIndex childCount isFolderFoxParent rng =
        positionChildrenUpdate sqrtF nodeX nodeY parentX parentY childX childY
          childVx childVy childIndex childCount isFolderFoxParent rng2) ∧
    (∀ px py vx vy tx ty R rng,
      orbitalForceUpdate sqrtF (some px) (some py) vx vy tx ty (some (px, py)) R rng =
        (vx + (tx - px) * (18/100), vy + (ty - py) * (18/100))) ∧
    (∀ x y cx cy cvx cvy i k ff rng,
      positionChildrenUpdate sqrtF x y x y cx cy cvx cvy i k ff rng =
        (cvx * (85/100) + (x - cx) * (25/100),
         cvy * (85/100) + (y - cy) * (25/100))) := by
  refine ⟨?_, ?_, ?_, ?_, ?_⟩
  · intro s
    unfold jsOrOne
    by_cases hs : s = 0
    · simp [hs]
    · simp [hs]
  · intro nodeX nodeY vx vy targetX targetY parentLayout orbitRadius rng rng2
    rfl
  · intro nodeX nodeY parentX parentY childX childY childVx childVy childIndex
      childCount isFolderFoxParent rng rng2
    rfl
  · intro px py vx vy tx ty R rng
    simp only [orbitalForceUpdate, Option.getD_some, sub_self]
    by_cases hR : 0 < R
    · simp [hR, h0, jsOrOne]
    · simp [hR]
  · intro x y cx cy cvx cvy i k ff rng
    simp only [positionChildrenUpdate, sub_self]
    simp [h0, jsOrOne]

/-- Witness for C8's amended theorem with the concrete square root stub
`fun q => if q = 0 then 0 else 1`, checking the coincident-case closed form
of the orbital force at a node sitting exactly on its parent's target. -/
theorem force_zero_distance_guard_spec_witness :
    orbitalForceUpdate (fun q => if q = 0 then 0 else 1) (some 100) (some 100)
        0 0 100 100 (some (100, 100)) 50 [1/10] =
      (0 + (100 - 100) * (18/100), 0 + (100 - 100) * (18/100)) :=
  (force_zero_distance_guard_spec (fun q => if q = 0 then 0 else 1)
    (by norm_num)).2.2.2.1 100 100 0 0 100 100 50 [1/10]

/-- Counterexample to C8 as stated: at exactly coincident positions the
orbital force update is one fixed value, identical for different random
draws — no randomized tie-break angle is substituted (and the substituted
distance is 1, not a small epsilon). -/
theorem orbitalForce_zero_distance_no_random_counterexample :
    orbitalForceUpdate (fun q => if q = 0 then 0 else 1) (some 100) (some 100)
        0 0 100 100 (some (100, 100)) 50 [1/10] =
      orbitalForceUpdate (fun q => if q = 0 then 0 else 1) (some 100) (some 100)
        0 0 100 100 (some (100, 100)) 50 [9/10] ∧
    orbitalForceUpdate (fun q => if q = 0 then 0 else 1) (some 100) (some 100)
        0 0 100 100 (some (100, 100)) 50 [1/10] = (0, 0) := by
  constructor
  · rfl
  · simp [orbitalForceUpdate, jsOrOne]
